import Mathlib

/-!
# Verification of the gotree process-tree pipeline

Shallow embedding of the core of the `gotree` command (package `main`):
the process table, the process tree (`processTree[K] = map[K]processTree[K]`), the
hierarchy builder `buildTree`, path insertion `add`, the flattener
`flatTree` with its `depthTree`-based child ordering, the subtree finder
`findTree`, and the restriction loop of `Main`.

Modelling conventions:
* Go `Pid` (an `int`) is modelled as `Int`.
* A Go map is modelled as a key-sorted association structure (a canonical
  representative of the finite map); Go map iteration order is
  nondeterministic, so every theorem about an iteration-order-sensitive
  loop is either proved for the canonical key order and shown invariant
  under permutations of that order, or is order-insensitive by
  construction.
* The ancestor walk `for ; pid > 0; pid = tb[pid].Ppid` can dereference a
  nil `*process` (a run-time panic) and can fail to terminate on cyclic
  parent links; it is modelled with explicit fuel and a result type that
  distinguishes normal completion, the nil-dereference panic, and fuel
  exhaustion (no amount of fuel suffices ⇒ the Go loop diverges).
-/

/-- `Pid` is the type for the process identifier (Go `int`). -/
abbrev Pid := Int

/-- `CommandLine` contains a process' command line arguments. -/
structure CommandLine where
  executable : String
  args : List String
  envs : List String
deriving DecidableEq, Repr

/-- process info: embedded pid, parent pid `Ppid`, command line. -/
structure process where
  pid : Pid
  ppid : Pid
  cmdline : CommandLine
deriving DecidableEq, Repr

/-- Build a process record with an empty command line (the command line
fields play no role in the tree pipeline). -/
def mkProc (pid ppid : Pid) : process :=
  ⟨pid, ppid, ⟨"", [], []⟩⟩

/-- Result of running a Go loop that may panic on a nil `*process`
dereference or diverge (modelled as running out of every fuel bound). -/
inductive Res (α : Type) where
  | ok (val : α)
  | panicked
  | outOfFuel
deriving DecidableEq, Repr

/-- `processTable = map[Pid]*process`, modelled as an association list;
the canonical representative keeps keys strictly ascending. -/
abbrev ProcTable := List (Pid × process)

/-- Map lookup `tb[pid]` (first matching key). -/
def ProcTable.lookup : ProcTable → Pid → Option process
  | [], _ => none
  | (k, v) :: rest, p => if p = k then some v else ProcTable.lookup rest p

/-- The key set of the table, in stored order (`for pid := range tb`
iterates these keys; permutations of this order are considered where
iteration order matters). -/
def ProcTable.keys (tb : ProcTable) : List Pid :=
  tb.map Prod.fst

/-- Map assignment `tb[pid] = p`, keeping keys strictly ascending. -/
def ProcTable.insertRec : ProcTable → Pid → process → ProcTable
  | [], p, v => [(p, v)]
  | (k, w) :: rest, p, v =>
    if p < k then (p, v) :: (k, w) :: rest
    else if p = k then (p, v) :: rest
    else (k, w) :: ProcTable.insertRec rest p v

/-- Build a table from a list of records (later assignments win, exactly
as repeated Go map assignment). -/
def ProcTable.ofList (l : List (Pid × process)) : ProcTable :=
  l.foldl (fun tb e => tb.insertRec e.1 e.2) []

/-- `processTree[K] = map[K]processTree[K]` from the source: a hierarchy of pids, each
node mapping a pid to the tree of its children.  The Go map at each level
is modelled as an association list in `cons` cells: `cons k sub rest` is
the map `{k: sub} ∪ rest`; the canonical representative keeps the keys of
every level strictly ascending. -/
inductive processTree where
  | nil : processTree
  | cons (key : Pid) (sub : processTree) (rest : processTree) : processTree
deriving DecidableEq, Repr

namespace processTree

/-- Map lookup `tr[k]` at the top level of a tree. -/
def lookup : processTree → Pid → Option processTree
  | .nil, _ => none
  | .cons k sub rest, p => if p = k then some sub else rest.lookup p

/-- Map assignment `tr[k] = v` at the top level, keeping keys strictly
ascending (canonical form). -/
def insertT : processTree → Pid → processTree → processTree
  | .nil, p, v => .cons p v .nil
  | .cons k sub rest, p, v =>
    if p < k then .cons p v (.cons k sub rest)
    else if p = k then .cons p v rest
    else .cons k sub (rest.insertT p v)

/-- `add` inserts a node path into a tree (source `(tr processTree[K]) add`):
if the path is nonempty, create the entry for its head unless present,
then insert the tail under that entry. -/
def add : processTree → List Pid → processTree
  | tr, [] => tr
  | tr, k :: ks => tr.insertT k (((tr.lookup k).getD .nil).add ks)

/-- Top-level keys of a tree (the keys of the Go map at this level). -/
def keysTop : processTree → List Pid
  | .nil => []
  | .cons k _ rest => k :: rest.keysTop

/-- Every pid occurring anywhere in the tree, top-down. -/
def keysAll : processTree → List Pid
  | .nil => []
  | .cons k sub rest => k :: (sub.keysAll ++ rest.keysAll)

/-- Number of nodes in the tree. -/
def size : processTree → Nat
  | .nil => 0
  | .cons _ sub rest => 1 + sub.size + rest.size

/-- Does `p` occur anywhere in the tree (as a key at any level)? -/
def memB : processTree → Pid → Bool
  | .nil, _ => false
  | .cons k sub rest, p => (k == p) || sub.memB p || rest.memB p

/-- Number of occurrences of `p` as a key anywhere in the tree. -/
def count : processTree → Pid → Nat
  | .nil, _ => 0
  | .cons k sub rest, p =>
    (if k = p then 1 else 0) + sub.count p + rest.count p

/-- `depthTree` (source): the height of the tree, 0 for a leaf; used to
sort the deepest subtrees first. -/
def depthTree : processTree → Nat
  | .nil => 0
  | .cons _ sub rest => max (sub.depthTree + 1) rest.depthTree

/-- `findTree` (source): find the subtree anchored by a specific node,
returned as the single-entry map `{node: subtree}`; Go's `nil` result is
`none`.  Entries are scanned in stored order: first the key itself, then
recursively its subtree, then the remaining entries. -/
def findTree : processTree → Pid → Option processTree
  | .nil, _ => none
  | .cons k sub rest, node =>
    if k = node then some (.cons node sub .nil)
    else
      match sub.findTree node with
      | some r => some r
      | none => rest.findTree node

/-- Like `findTree` but also returning the list of keys on the path from
a top-level root down to (and including) the sought node. -/
def findPath : processTree → Pid → Option (List Pid × processTree)
  | .nil, _ => none
  | .cons k sub rest, node =>
    if k = node then some ([k], sub)
    else
      match sub.findPath node with
      | some (p, s) => some (k :: p, s)
      | none => rest.findPath node

/-- Occurrence relation: the tree has, somewhere, an entry mapping `node`
to exactly the subtree `sub`. -/
def hasSub : processTree → Pid → processTree → Prop
  | .nil, _, _ => False
  | .cons k s r, node, sub =>
    (k = node ∧ s = sub) ∨ s.hasSub node sub ∨ r.hasSub node sub

end processTree

/-- The ancestor walk of `buildTree` (source):
`for ; pid > 0; pid = tb[pid].Ppid { pids = append(Pids{pid}, pids...) }`.
The body prepends the current pid; the post statement dereferences
`tb[pid]`, which is a nil-pointer panic when `pid` is absent from the
table.  `fuel` bounds the number of steps; divergence shows up as
`outOfFuel` for every fuel. -/
def ancestorWalk (tb : ProcTable) : Nat → Pid → List Pid → Res (List Pid)
  | fuel, pid, pids =>
    if pid ≤ 0 then .ok pids
    else
      match tb.lookup pid with
      | none => .panicked
      | some p =>
        match fuel with
        | 0 => .outOfFuel
        | fuel' + 1 => ancestorWalk tb fuel' p.ppid (pid :: pids)

/-- `buildTree`'s loop over the table keys in the given iteration order:
walk each key's ancestor chain and `add` the resulting root-first path. -/
def buildTreeGo (tb : ProcTable) (fuel : Nat) : List Pid → processTree → Res processTree
  | [], tr => .ok tr
  | pid :: rest, tr =>
    match ancestorWalk tb fuel pid [] with
    | .ok pids => buildTreeGo tb fuel rest (tr.add pids)
    | .panicked => .panicked
    | .outOfFuel => .outOfFuel

/-- `buildTree` (source): builds the process tree from the process table,
iterating the table keys (canonical order here; see the permutation
theorems for other iteration orders). -/
def buildTree (tb : ProcTable) (fuel : Nat) : Res processTree :=
  buildTreeGo tb fuel tb.keys .nil

/-- A per-entry flattening block: the `depthTree` of the entry's subtree
(the sort key of `flatTree`'s comparator), the entry's pid, and the flat
(depth, pid) sequence the entry contributes. -/
abbrev FlatBlock := Nat × Pid × List (Nat × Pid)

/-- The comparator of `flatTree`'s `sort.Slice` call (source):
`dti > dtj || dti == dtj && keys[i] < keys[j]` — deepest subtree first,
ties broken by pid ascending. -/
def blockLess (a b : FlatBlock) : Bool :=
  b.1 < a.1 || (a.1 == b.1 && a.2.1 < b.2.1)

/-- Insert `a` into `l` in front of the first element `b` with `le a b`. -/
def insertOrd {α : Type} (le : α → α → Bool) (a : α) : List α → List α
  | [] => [a]
  | b :: l => if le a b then a :: b :: l else b :: insertOrd le a l

/-- Insertion sort by `le`; for the pairwise-distinct keys of a Go map
level this produces the unique ordering of `sort.Slice`'s strict
comparator, whatever order the keys were listed in. -/
def sortOrd {α : Type} (le : α → α → Bool) : List α → List α
  | [] => []
  | a :: l => insertOrd le a (sortOrd le l)

/-- Concatenate the flat sequences of a list of blocks. -/
def joinBlocks : List FlatBlock → List (Nat × Pid)
  | [] => []
  | b :: bs => b.2.2 ++ joinBlocks bs

namespace processTree

/-- The blocks of a tree's top-level entries at a given indent, in stored
order: entry `(k, sub)` contributes sort key `sub.depthTree` and the flat
sequence `(indent, k)` followed by `sub`'s flattening at `indent + 1`.
(The recursive flattening of an entry's subtree does not depend on its
siblings, so it can be computed before the entries are sorted; `flatTree`
below then sorts the blocks exactly as the source sorts the keys.) -/
def blocks : processTree → Nat → List FlatBlock
  | .nil, _ => []
  | .cons k sub rest, indent =>
    (sub.depthTree, k,
      (indent, k) :: joinBlocks (sortOrd blockLess (sub.blocks (indent + 1))))
      :: rest.blocks indent

/-- `flatTree` (source): emit the tree depth-first, children sorted by
the `blockLess` comparator (deepest subtree first, then pid ascending);
the result is the sequence of `(indent, key)` pairs passed to `fn`.
(The source also returns the bare key list `flat`, which is the `map
Prod.snd` image of this sequence.) -/
def flatTree (tr : processTree) (indent : Nat) : List (Nat × Pid) :=
  joinBlocks (sortOrd blockLess (tr.blocks indent))

/-- Number of nodes of the tree at nesting level `n` (top level = 0). -/
def levelCount : processTree → Nat → Nat
  | .nil, _ => 0
  | .cons _ _ rest, 0 => 1 + rest.levelCount 0
  | .cons _ sub rest, n + 1 => sub.levelCount n + rest.levelCount (n + 1)

end processTree

/-- Result of `Main`'s restriction loop.  `panicNil` is a nil `*process`
dereference (`tb[pid].Ppid` with `pid` absent); `panicLen` is the
explicit `len(trb) > 1` panic guard; `hang` is the infinite splice loop
reached when `trb` is an empty map (the inner `range` then never breaks
out of `loop`). -/
inductive MainRes where
  | ok (tr : processTree)
  | panicNil
  | panicLen
  | hang
  | outOfFuel
deriving DecidableEq, Repr

/-- The ancestor wrap of `Main` (source):
`for pid := tb[pid].Ppid; pid > 0; pid = tb[pid].Ppid { trb = processTree{pid: trb} }`
after the init statement's dereference; loop body first, then the post
statement's `tb[pid]` dereference, as in `ancestorWalk`. -/
def wrapLoop (tb : ProcTable) : Nat → Pid → processTree → Res processTree
  | fuel, pid, trb =>
    if pid ≤ 0 then .ok trb
    else
      match tb.lookup pid with
      | none => .panicked
      | some p =>
        match fuel with
        | 0 => .outOfFuel
        | fuel' + 1 => wrapLoop tb fuel' p.ppid (processTree.cons pid trb .nil)

/-- The splice of `Main` (source, label `loop`): descend the main tree
`trc` and the wrapped subtree `trb` along their common branch until a key
of `trb` is missing from `trc`, then graft `trb`'s entry there.  An empty
`trb` makes the Go loop spin forever (`hang`); more than one entry hits
the panic guard (`panicLen`).  The Go code mutates `trc` in place through
shared submaps; functionally the updated subtree is re-inserted on the
way out. -/
def spliceLoop : processTree → processTree → MainRes
  | _, .nil => .hang
  | trc, .cons k sub .nil =>
    (match trc.lookup k with
     | none => .ok (trc.insertT k sub)
     | some tre =>
       match spliceLoop tre sub with
       | .ok tre' => .ok (trc.insertT k tre')
       | e => e)
  | _, .cons _ _ (.cons _ _ _) => .panicLen

/-- `Main`'s target selection (source): keep the requested pids that are
present in the table; if none remain (flag omitted or all unknown),
substitute pid 1. -/
def mainTargets (tb : ProcTable) (flagPids : List Pid) : List Pid :=
  let pids := flagPids.filter (fun p => (tb.lookup p).isSome)
  if pids.isEmpty then [1] else pids

/-- `Main`'s restriction loop over the selected target pids (source):
skip a target already present in the accumulated tree `tra`; otherwise
find its subtree in the full tree `tr`, wrap it in its ancestor chain
(dereferencing `tb[pid]` first — a nil-pointer panic when the target is
absent from the table, which the pid-1 fallback does not rule out), and
splice the wrapped subtree into `tra`. -/
def mainLoop (tb : ProcTable) (tr : processTree) (fuel : Nat) :
    List Pid → processTree → MainRes
  | [], tra => .ok tra
  | pid :: rest, tra =>
    if (tra.findTree pid).isSome then mainLoop tb tr fuel rest tra
    else
      let core := (tr.findTree pid).getD .nil
      match tb.lookup pid with
      | none => .panicNil
      | some p =>
        match wrapLoop tb fuel p.ppid core with
        | .panicked => .panicNil
        | .outOfFuel => .outOfFuel
        | .ok trb =>
          match spliceLoop tra trb with
          | .ok tra' => mainLoop tb tr fuel rest tra'
          | e => e

/-- `Main` (source): build the table's tree, select the targets, and
accumulate the restricted tree; the walk inside `buildTree` can itself
panic (nil dereference) or diverge. -/
def MainGo (tb : ProcTable) (flagPids : List Pid) (fuel : Nat) : MainRes :=
  match buildTree tb fuel with
  | .panicked => .panicNil
  | .outOfFuel => .outOfFuel
  | .ok tr => mainLoop tb tr fuel (mainTargets tb flagPids) .nil

/-- Modelled from the spec (§4.2 Lineage Selector, a function the source
does not define by this name): `family(tree, target)` is every id on the
path from a tree root to `target` (inclusive) plus every id in the
subtree rooted at `target`; empty when `target` is absent from the
tree. -/
def spec_family (tr : processTree) (target : Pid) : List Pid :=
  match tr.findPath target with
  | none => []
  | some (path, sub) => path ++ sub.keysAll

-- Quick sanity checks of the embedding on the spec's scenario table.
example :
    ancestorWalk (ProcTable.ofList
      [(1, mkProc 1 0), (2, mkProc 2 1), (3, mkProc 3 1), (4, mkProc 4 2)])
      9 4 [] = .ok [1, 2, 4] := by decide

example :
    buildTree (ProcTable.ofList
      [(1, mkProc 1 0), (2, mkProc 2 1), (3, mkProc 3 1), (4, mkProc 4 2)])
      9 =
    .ok (.cons 1 (.cons 2 (.cons 4 .nil .nil) (.cons 3 .nil .nil)) .nil) := by
  decide

example :
    processTree.flatTree
      (.cons 1 (.cons 2 (.cons 4 .nil .nil) (.cons 3 .nil .nil)) .nil) 0 =
    [(0, 1), (1, 2), (2, 4), (1, 3)] := by decide

-- Sanity checks of the Main restriction model on concrete tables.
example :
    MainGo (ProcTable.ofList
      [(1, mkProc 1 0), (2, mkProc 2 1), (3, mkProc 3 1), (4, mkProc 4 2)])
      [4] 9 =
    .ok (.cons 1 (.cons 2 (.cons 4 .nil .nil) .nil) .nil) := by decide

example :
    MainGo (ProcTable.ofList
      [(1, mkProc 1 0), (2, mkProc 2 1), (3, mkProc 3 1)]) [2, 1] 9 =
    .ok (.cons 1 (.cons 2 .nil .nil) .nil) := by decide

example :
    MainGo (ProcTable.ofList
      [(1, mkProc 1 0), (2, mkProc 2 1), (3, mkProc 3 1)]) [1, 2] 9 =
    .ok (.cons 1 (.cons 2 .nil (.cons 3 .nil .nil)) .nil) := by decide

example :
    spec_family (.cons 1 (.cons 2 .nil (.cons 3 .nil .nil)) .nil) 1 =
    [1, 2, 3] := by decide

/-! ## Concrete tables used by the closed theorems -/

/-- The spec's scenario table `{1→0, 2→1, 3→1, 4→2}`. -/
def tbScenario : ProcTable :=
  [(1, mkProc 1 0), (2, mkProc 2 1), (3, mkProc 3 1), (4, mkProc 4 2)]

/-- The tree the scenario table builds: 1 has children {2, 3}, 2 has
child {4}. -/
def treeScenario : processTree :=
  .cons 1 (.cons 2 (.cons 4 .nil .nil) (.cons 3 .nil .nil)) .nil

/-- A table with one record whose parent id (99) is positive but absent:
`{5→99}`. -/
def tbOrphan : ProcTable := [(5, mkProc 5 99)]

/-- A table whose single process is its own parent: `{1→1}`. -/
def tbSelf : ProcTable := [(1, mkProc 1 1)]

/-- The table `{1→0, 2→1, 3→1}`: one root with two children. -/
def tbFork : ProcTable :=
  [(1, mkProc 1 0), (2, mkProc 2 1), (3, mkProc 3 1)]

/-! ## Basic lemmas about `insertT`, `lookup`, `add` -/

namespace processTree

theorem lookup_insertT_self (t : processTree) (k : Pid) (v : processTree) :
    (t.insertT k v).lookup k = some v := by
  induction t with
  | nil => simp [insertT, lookup]
  | cons k' sub rest ihs ihr =>
    by_cases h1 : k < k'
    · simp [insertT, h1, lookup]
    · by_cases h2 : k = k'
      · simp [insertT, h1, h2, lookup]
      · simp [insertT, h1, h2, lookup, ihr]

theorem lookup_insertT_ne (t : processTree) (k k' : Pid) (v : processTree)
    (h : k' ≠ k) : (t.insertT k v).lookup k' = t.lookup k' := by
  induction t with
  | nil => simp [insertT, lookup, h]
  | cons a sub rest ihs ihr =>
    by_cases h1 : k < a
    · simp [insertT, h1, lookup, h]
    · by_cases h2 : k = a
      · subst h2
        simp [insertT, h1, lookup, h]
      · simp [insertT, h1, h2, lookup, ihr]

theorem insertT_insertT_self (t : processTree) (k : Pid)
    (v w : processTree) : (t.insertT k v).insertT k w = t.insertT k w := by
  induction t with
  | nil => simp [insertT]
  | cons a sub rest ihs ihr =>
    by_cases h1 : k < a
    · simp [insertT, h1, lt_irrefl]
    · by_cases h2 : k = a
      · subst h2
        simp [insertT, h1, lt_irrefl]
      · simp [insertT, h1, h2, ihr]

theorem insertT_insertT_comm (t : processTree) (k k' : Pid)
    (v w : processTree) (h : k ≠ k') :
    (t.insertT k v).insertT k' w = (t.insertT k' w).insertT k v := by
  induction t with
  | nil =>
    rcases lt_or_gt_of_ne h with hlt | hgt
    · simp [insertT, hlt, not_lt_of_gt hlt, h, Ne.symm h]
    · simp [insertT, hgt, not_lt_of_gt hgt, h, Ne.symm h]
  | cons a sub rest ihs ihr =>
    rcases lt_or_gt_of_ne h with hkk | hkk
    · by_cases h1 : k < a
      · have h2 : k' ≠ a ∨ True := Or.inr trivial
        by_cases h3 : k' < a
        · simp [insertT, h1, h3, hkk, not_lt_of_gt hkk, h, Ne.symm h]
        · by_cases h4 : k' = a
          · subst h4
            simp [insertT, h1, h3, hkk, not_lt_of_gt hkk, h, Ne.symm h]
          · simp [insertT, h1, h3, h4, hkk, not_lt_of_gt hkk, h, Ne.symm h]
      · by_cases h2 : k = a
        · subst h2
          have h3 : ¬ k' < k := not_lt_of_gt hkk
          have h4 : k' ≠ k := Ne.symm h
          simp [insertT, h1, h3, h4, hkk, lt_irrefl, h]
        · by_cases h3 : k' < a
          · exact absurd (lt_trans hkk h3) h1
          · by_cases h4 : k' = a
            · subst h4
              simp [insertT, h1, h2, h3, hkk, not_lt_of_gt hkk, h, lt_irrefl]
            · simp [insertT, h1, h2, h3, h4, ihr]
    · by_cases h1 : k' < a
      · by_cases h3 : k < a
        · simp [insertT, h1, h3, hkk, not_lt_of_gt hkk, h, Ne.symm h]
        · by_cases h4 : k = a
          · subst h4
            simp [insertT, h1, h3, hkk, not_lt_of_gt hkk, h, Ne.symm h]
          · simp [insertT, h1, h3, h4, hkk, not_lt_of_gt hkk, h, Ne.symm h]
      · by_cases h2 : k' = a
        · subst h2
          have h3 : ¬ k < k' := not_lt_of_gt hkk
          simp [insertT, h1, h3, h, hkk, lt_irrefl]
        · by_cases h3 : k < a
          · exact absurd (lt_trans hkk h3) h1
          · by_cases h4 : k = a
            · subst h4
              simp [insertT, h1, h2, h3, hkk, not_lt_of_gt hkk, Ne.symm h, lt_irrefl]
            · simp [insertT, h1, h2, h3, h4, ihr]

end processTree

/-! ## Sorting and block lemmas for the flattener -/

theorem insertOrd_perm {α : Type} (le : α → α → Bool) (a : α) :
    ∀ l : List α, (insertOrd le a l).Perm (a :: l) := by
  intro l
  induction l with
  | nil => simp [insertOrd]
  | cons b l ih =>
    by_cases h : le a b = true
    · simp [insertOrd, h]
    · simp only [insertOrd, h, if_false]
      exact (ih.cons b).trans (List.Perm.swap a b l)

theorem sortOrd_perm {α : Type} (le : α → α → Bool) :
    ∀ l : List α, (sortOrd le l).Perm l := by
  intro l
  induction l with
  | nil => simp [sortOrd]
  | cons a l ih =>
    exact (insertOrd_perm le a (sortOrd le l)).trans (ih.cons a)

theorem joinBlocks_length (bs : List FlatBlock) :
    (joinBlocks bs).length = (bs.map (fun b => b.2.2.length)).sum := by
  induction bs with
  | nil => rfl
  | cons b bs ih => simp [joinBlocks, ih]

theorem joinBlocks_countP (p : Nat × Pid → Bool) (bs : List FlatBlock) :
    (joinBlocks bs).countP p = (bs.map (fun b => b.2.2.countP p)).sum := by
  induction bs with
  | nil => rfl
  | cons b bs ih => simp [joinBlocks, List.countP_append, ih]

theorem joinBlocks_mem (x : Nat × Pid) (bs : List FlatBlock) :
    x ∈ joinBlocks bs ↔ ∃ b ∈ bs, x ∈ b.2.2 := by
  induction bs with
  | nil => simp [joinBlocks]
  | cons b bs ih => simp [joinBlocks, ih]

namespace processTree

theorem blocks_cons (k : Pid) (sub rest : processTree) (d : Nat) :
    (processTree.cons k sub rest).blocks d =
      (sub.depthTree, k, (d, k) :: sub.flatTree (d + 1)) :: rest.blocks d :=
  rfl

theorem flatTree_countP_blocks (t : processTree) (d : Nat)
    (p : Nat × Pid → Bool) :
    (t.flatTree d).countP p =
      ((t.blocks d).map (fun b => b.2.2.countP p)).sum := by
  rw [flatTree, joinBlocks_countP]
  exact ((sortOrd_perm blockLess (t.blocks d)).map _).sum_eq

theorem flatTree_length_blocks (t : processTree) (d : Nat) :
    (t.flatTree d).length =
      ((t.blocks d).map (fun b => b.2.2.length)).sum := by
  rw [flatTree, joinBlocks_length]
  exact ((sortOrd_perm blockLess (t.blocks d)).map _).sum_eq

theorem mem_flatTree_iff (t : processTree) (d : Nat) (x : Nat × Pid) :
    x ∈ t.flatTree d ↔ ∃ b ∈ t.blocks d, x ∈ b.2.2 := by
  rw [flatTree, joinBlocks_mem]
  constructor
  · rintro ⟨b, hb, hx⟩
    exact ⟨b, (sortOrd_perm blockLess (t.blocks d)).mem_iff.mp hb, hx⟩
  · rintro ⟨b, hb, hx⟩
    exact ⟨b, (sortOrd_perm blockLess (t.blocks d)).mem_iff.mpr hb, hx⟩

theorem flatTree_size (t : processTree) : ∀ d : Nat,
    (t.flatTree d).length = t.size := by
  induction t with
  | nil => intro d; rfl
  | cons k sub rest ihs ihr =>
    intro d
    rw [flatTree_length_blocks, blocks_cons]
    simp only [List.map_cons, List.sum_cons, List.length_cons]
    rw [ihs (d + 1)]
    have : ((rest.blocks d).map (fun b => b.2.2.length)).sum =
        (rest.flatTree d).length := (flatTree_length_blocks rest d).symm
    rw [this, ihr d, size]
    omega

theorem flatTree_depth_le (t : processTree) : ∀ (d : Nat) (x : Nat × Pid),
    x ∈ t.flatTree d → d ≤ x.1 := by
  induction t with
  | nil => intro d x hx; simp [flatTree, blocks, sortOrd, joinBlocks] at hx
  | cons k sub rest ihs ihr =>
    intro d x hx
    rcases (mem_flatTree_iff _ d x).mp hx with ⟨b, hb, hxb⟩
    rw [blocks_cons] at hb
    rcases List.mem_cons.mp hb with hb | hb
    · subst hb
      rcases List.mem_cons.mp hxb with hxk | hxs
      · simp [hxk]
      · exact le_trans (Nat.le_succ d) (ihs (d + 1) x hxs)
    · exact ihr d x ((mem_flatTree_iff rest d x).mpr ⟨b, hb, hxb⟩)

theorem flatTree_levelCount (t : processTree) : ∀ (d n : Nat),
    (t.flatTree d).countP (fun x => x.1 == d + n) = t.levelCount n := by
  induction t with
  | nil => intro d n; rfl
  | cons k sub rest ihs ihr =>
    intro d n
    rw [flatTree_countP_blocks, blocks_cons]
    simp only [List.map_cons, List.sum_cons]
    have hrest : ((rest.blocks d).map
        (fun b => b.2.2.countP (fun x => x.1 == d + n))).sum =
        rest.levelCount n := by
      rw [← flatTree_countP_blocks]; exact ihr d n
    rw [hrest]
    cases n with
    | zero =>
      have hsub :
          (sub.flatTree (d + 1)).countP (fun x => x.1 == d + 0) = 0 := by
        rw [List.countP_eq_zero]
        intro x hx
        have := flatTree_depth_le sub (d + 1) x hx
        simp only [beq_iff_eq]
        omega
      simp only [List.countP_cons, hsub]
      simp [levelCount]
    | succ m =>
      have hd : ((d, k).1 == d + (m + 1)) = false := by
        simp only [beq_eq_false_iff_ne]
        omega
      have harith : d + (m + 1) = (d + 1) + m := by omega
      simp only [List.countP_cons, hd, if_false]
      rw [harith, ihs (d + 1) m]
      simp [levelCount]

end processTree

/-! ## Claim C6: flattening covers each node once, depth = level -/

/-- C6: for every tree and starting indent, the flattener emits exactly
one (depth, id) pair per node (the sequence length equals the node
count), and a pair's depth is exactly the starting indent plus the node's
nesting level — in particular top-level roots are emitted at the starting
depth and depth grows by exactly 1 per level. -/
theorem C6_flatten_length_and_depths (t : processTree) (d : Nat) :
    (t.flatTree d).length = t.size ∧
    ∀ n : Nat,
      (t.flatTree d).countP (fun x => x.1 == d + n) = t.levelCount n :=
  ⟨t.flatTree_size d, fun n => t.flatTree_levelCount d n⟩

/-! ## Claim C7: path insertion is idempotent -/

/-- C7: path insertion into a tree is idempotent — for every tree and
every ancestor path, `add`ing the same path twice yields the tree
obtained by `add`ing it once. -/
theorem C7_add_idempotent (t : processTree) (path : List Pid) :
    (t.add path).add path = t.add path := by
  induction path generalizing t with
  | nil => simp [processTree.add]
  | cons a ks ih =>
    simp only [processTree.add, processTree.lookup_insertT_self,
      Option.getD_some, ih, processTree.insertT_insertT_self]

/-! ## Commutativity of path insertion and order-invariance of the build -/

theorem processTree.add_addComm :
    ∀ (p q : List Pid) (t : processTree), (t.add p).add q = (t.add q).add p := by
  intro p
  induction p with
  | nil => intro q t; simp [processTree.add]
  | cons a p' ih =>
    intro q t
    cases q with
    | nil => simp [processTree.add]
    | cons b q' =>
      by_cases hab : a = b
      · subst hab
        simp only [processTree.add, processTree.lookup_insertT_self,
          Option.getD_some, processTree.insertT_insertT_self]
        exact congrArg (t.insertT a) (ih q' ((t.lookup a).getD .nil))
      · simp only [processTree.add]
        rw [processTree.lookup_insertT_ne _ _ _ _ (Ne.symm hab),
          processTree.lookup_insertT_ne _ _ _ _ hab]
        exact processTree.insertT_insertT_comm t a b _ _ hab

/-- The ancestor path the walk computes for `p` (defaulting to `[]` when
the walk panics or runs out of fuel). -/
def pathD (tb : ProcTable) (fuel : Nat) (p : Pid) : List Pid :=
  match ancestorWalk tb fuel p [] with
  | .ok l => l
  | _ => []

theorem buildTreeGo_ok_foldl (tb : ProcTable) (fuel : Nat) :
    ∀ (order : List Pid) (t : processTree),
      (∀ p ∈ order, ∃ l, ancestorWalk tb fuel p [] = .ok l) →
      buildTreeGo tb fuel order t =
        .ok (order.foldl (fun tr p => tr.add (pathD tb fuel p)) t) := by
  intro order
  induction order with
  | nil => intro t _; rfl
  | cons p rest ih =>
    intro t h
    obtain ⟨l, hl⟩ := h p (List.mem_cons_self p rest)
    have hp : pathD tb fuel p = l := by rw [pathD, hl]
    rw [buildTreeGo, hl, List.foldl_cons, hp]
    exact ih (t.add l) (fun q hq => h q (List.mem_cons_of_mem p hq))

theorem buildTreeGo_ok_walks (tb : ProcTable) (fuel : Nat) :
    ∀ (order : List Pid) (t : processTree) (tr : processTree),
      buildTreeGo tb fuel order t = .ok tr →
      ∀ p ∈ order, ∃ l, ancestorWalk tb fuel p [] = .ok l := by
  intro order
  induction order with
  | nil => intro t tr _ p hp; cases hp
  | cons q rest ih =>
    intro t tr h p hp
    rw [buildTreeGo] at h
    rcases hw : ancestorWalk tb fuel q [] with l | _ | _ <;> rw [hw] at h
    · rcases List.mem_cons.mp hp with rfl | hp'
      · exact ⟨_, hw⟩
      · exact ih _ tr h p hp'
    · cases h
    · cases h

theorem foldl_add_perm (f : Pid → List Pid) {ord ord' : List Pid}
    (hp : ord.Perm ord') (t : processTree) :
    ord.foldl (fun tr p => tr.add (f p)) t =
      ord'.foldl (fun tr p => tr.add (f p)) t :=
  hp.foldl_eq'
    (fun x _ y _ z => processTree.add_addComm (f x) (f y) z) t

/-! ## Canonical tables: `ofList` is a function of the record set -/

/-- A table in canonical form: keys strictly ascending. -/
abbrev sortedTab : ProcTable → Prop :=
  List.Pairwise (fun e f : Pid × process => e.1 < f.1)

theorem ProcTable.lookup_insertRec_self (tb : ProcTable) (k : Pid)
    (v : process) : (tb.insertRec k v).lookup k = some v := by
  induction tb with
  | nil => simp [ProcTable.insertRec, ProcTable.lookup]
  | cons e rest ih =>
    by_cases h1 : k < e.1
    · simp [ProcTable.insertRec, h1, ProcTable.lookup]
    · by_cases h2 : k = e.1
      · simp [ProcTable.insertRec, h1, h2, ProcTable.lookup]
      · simp [ProcTable.insertRec, h1, h2, ProcTable.lookup, ih]

theorem ProcTable.lookup_insertRec_ne (tb : ProcTable) (k k' : Pid)
    (v : process) (h : k' ≠ k) :
    (tb.insertRec k v).lookup k' = tb.lookup k' := by
  induction tb with
  | nil => simp [ProcTable.insertRec, ProcTable.lookup, h]
  | cons e rest ih =>
    by_cases h1 : k < e.1
    · simp [ProcTable.insertRec, h1, ProcTable.lookup, h]
    · by_cases h2 : k = e.1
      · subst h2
        simp [ProcTable.insertRec, h1, ProcTable.lookup, h]
      · simp [ProcTable.insertRec, h1, h2, ProcTable.lookup, ih]

theorem ProcTable.mem_insertRec (tb : ProcTable) (k : Pid) (v : process) :
    ∀ e ∈ tb.insertRec k v, e = (k, v) ∨ e ∈ tb := by
  induction tb with
  | nil =>
    intro e he
    simp only [ProcTable.insertRec, List.mem_singleton] at he
    exact Or.inl he
  | cons f rest ih =>
    intro e he
    by_cases h1 : k < f.1
    · simp only [ProcTable.insertRec, h1, if_true] at he
      rcases List.mem_cons.mp he with he | he
      · exact Or.inl he
      · exact Or.inr he
    · by_cases h2 : k = f.1
      · subst h2
        simp only [ProcTable.insertRec, lt_self_iff_false, eq_self_iff_true,
          if_false, if_true] at he
        rcases List.mem_cons.mp he with he | he
        · exact Or.inl he
        · exact Or.inr (List.mem_cons_of_mem f he)
      · simp only [ProcTable.insertRec, h1, h2, if_false] at he
        rcases List.mem_cons.mp he with he | he
        · exact Or.inr (by rw [he]; exact List.mem_cons_self f rest)
        · rcases ih e he with h | h
          · exact Or.inl h
          · exact Or.inr (List.mem_cons_of_mem f h)

theorem ProcTable.insertRec_sorted (tb : ProcTable) (k : Pid) (v : process)
    (hs : sortedTab tb) : sortedTab (tb.insertRec k v) := by
  induction tb with
  | nil => simp [ProcTable.insertRec, sortedTab]
  | cons f rest ih =>
    rcases List.pairwise_cons.mp hs with ⟨hf, hrest⟩
    by_cases h1 : k < f.1
    · simp only [ProcTable.insertRec, h1, if_true]
      refine List.Pairwise.cons ?_ hs
      intro e he
      rcases List.mem_cons.mp he with rfl | he
      · exact h1
      · exact lt_trans h1 (hf e he)
    · by_cases h2 : k = f.1
      · subst h2
        simp only [ProcTable.insertRec, lt_self_iff_false, eq_self_iff_true,
          if_false, if_true]
        exact List.Pairwise.cons hf hrest
      · simp only [ProcTable.insertRec, h1, h2, if_false]
        refine List.Pairwise.cons ?_ (ih hrest)
        intro e he
        rcases ProcTable.mem_insertRec rest k v e he with rfl | he
        · rcases lt_trichotomy f.1 k with h | h | h
          · exact h
          · exact absurd h.symm h2
          · exact absurd h h1
        · exact hf e he

theorem ProcTable.foldl_insertRec_sorted (l : List (Pid × process)) :
    ∀ tb0 : ProcTable, sortedTab tb0 →
      sortedTab (l.foldl (fun tb e => tb.insertRec e.1 e.2) tb0) := by
  induction l with
  | nil => intro tb0 h; exact h
  | cons e l ih =>
    intro tb0 h
    exact ih _ (ProcTable.insertRec_sorted tb0 e.1 e.2 h)

theorem ProcTable.ofList_sorted (l : List (Pid × process)) :
    sortedTab (ProcTable.ofList l) :=
  ProcTable.foldl_insertRec_sorted l [] (List.Pairwise.nil)

theorem ProcTable.lookup_none_of_forall (tb : ProcTable) (k : Pid)
    (h : ∀ e ∈ tb, e.1 ≠ k) : tb.lookup k = none := by
  induction tb with
  | nil => rfl
  | cons e rest ih =>
    have hne : k ≠ e.1 := fun hk => h e (List.mem_cons_self e rest) hk.symm
    simp only [ProcTable.lookup, hne, if_false]
    exact ih (fun f hf => h f (List.mem_cons_of_mem e hf))

theorem ProcTable.forall_of_lookup_none (tb : ProcTable) (k : Pid)
    (h : tb.lookup k = none) : ∀ e ∈ tb, e.1 ≠ k := by
  induction tb with
  | nil => intro e he; cases he
  | cons e rest ih =>
    intro f hf
    by_cases hk : k = e.1
    · simp [ProcTable.lookup, hk] at h
    · simp only [ProcTable.lookup, hk, if_false] at h
      rcases List.mem_cons.mp hf with rfl | hf'
      · exact fun hc => hk hc.symm
      · exact ih h f hf'

theorem ProcTable.lookup_mem (tb : ProcTable) (k : Pid) (v : process)
    (h : tb.lookup k = some v) : (k, v) ∈ tb := by
  induction tb with
  | nil => cases h
  | cons e rest ih =>
    by_cases hk : k = e.1
    · simp only [ProcTable.lookup, hk, if_true] at h
      subst hk
      obtain rfl : e.2 = v := by injection h
      exact List.mem_cons_self e rest
    · simp only [ProcTable.lookup, hk, if_false] at h
      exact List.mem_cons_of_mem e (ih h)

theorem ProcTable.ext_sorted :
    ∀ tb tb' : ProcTable, sortedTab tb → sortedTab tb' →
      (∀ k, tb.lookup k = tb'.lookup k) → tb = tb' := by
  intro tb
  induction tb with
  | nil =>
    intro tb' _ _ h
    cases tb' with
    | nil => rfl
    | cons f r' =>
      have hf := h f.1
      simp [ProcTable.lookup] at hf
  | cons e r ih =>
    intro tb' hs hs' h
    cases tb' with
    | nil =>
      have he := h e.1
      simp [ProcTable.lookup] at he
    | cons f r' =>
      rcases List.pairwise_cons.mp hs with ⟨hse, hsr⟩
      rcases List.pairwise_cons.mp hs' with ⟨hsf, hsr'⟩
      have hkey : e.1 = f.1 := by
        rcases lt_trichotomy e.1 f.1 with hlt | heq | hgt
        · exfalso
          have h1 := h e.1
          have hleft : ProcTable.lookup (e :: r) e.1 = some e.2 := by
            simp [ProcTable.lookup]
          have hright : ProcTable.lookup (f :: r') e.1 = none := by
            apply ProcTable.lookup_none_of_forall
            intro g hg
            rcases List.mem_cons.mp hg with rfl | hg'
            · exact fun hc => absurd (hc ▸ hlt) (lt_irrefl _)
            · exact fun hc => absurd (hc ▸ lt_trans hlt (hsf g hg'))
                (lt_irrefl _)
          rw [hleft, hright] at h1
          cases h1
        · exact heq
        · exfalso
          have h1 := h f.1
          have hright : ProcTable.lookup (f :: r') f.1 = some f.2 := by
            simp [ProcTable.lookup]
          have hleft : ProcTable.lookup (e :: r) f.1 = none := by
            apply ProcTable.lookup_none_of_forall
            intro g hg
            rcases List.mem_cons.mp hg with rfl | hg'
            · exact fun hc => absurd (hc ▸ hgt) (lt_irrefl _)
            · exact fun hc => absurd (hc ▸ lt_trans hgt (hse g hg'))
                (lt_irrefl _)
          rw [hleft, hright] at h1
          cases h1
      have hval : e.2 = f.2 := by
        have h1 := h e.1
        simp only [ProcTable.lookup, if_pos rfl] at h1
        rw [hkey] at h1
        simp only [ProcTable.lookup, if_pos rfl] at h1
        injection h1
      have htail : r = r' := by
        apply ih r' hsr hsr'
        intro k
        by_cases hk : k = e.1
        · subst hk
          have hnone : ProcTable.lookup r e.1 = none := by
            apply ProcTable.lookup_none_of_forall
            intro g hg
            exact fun hc => absurd (hc ▸ hse g hg) (lt_irrefl _)
          have hnone' : ProcTable.lookup r' e.1 = none := by
            apply ProcTable.lookup_none_of_forall
            intro g hg
            exact fun hc => absurd (hc ▸ hkey ▸ hsf g hg) (lt_irrefl _)
          rw [hnone, hnone']
        · have h1 := h k
          simp only [ProcTable.lookup, hk, if_false] at h1
          rw [hkey] at hk
          simp only [hk, if_false] at h1
          exact h1
      have : e = f := Prod.ext hkey hval
      rw [this, htail]

theorem ProcTable.lookup_of_mem_nodup (l : List (Pid × process))
    (hnd : (l.map Prod.fst).Nodup) (k : Pid) (v : process)
    (hm : (k, v) ∈ l) : ProcTable.lookup l k = some v := by
  induction l with
  | nil => cases hm
  | cons e rest ih =>
    rcases List.mem_cons.mp hm with rfl | hm'
    · simp [ProcTable.lookup]
    · have hnd' := hnd
      rw [List.map_cons, List.nodup_cons] at hnd'
      have hne : k ≠ e.1 := by
        intro hc
        exact hnd'.1 (hc ▸ List.mem_map_of_mem Prod.fst hm')
      simp only [ProcTable.lookup, hne, if_false]
      exact ih hnd'.2 hm'

theorem ProcTable.lookup_perm_nodup {l l' : List (Pid × process)}
    (hp : l.Perm l') (hnd : (l.map Prod.fst).Nodup) (k : Pid) :
    ProcTable.lookup l k = ProcTable.lookup l' k := by
  rcases h : ProcTable.lookup l k with _ | v
  · symm
    apply ProcTable.lookup_none_of_forall
    intro e he
    exact ProcTable.forall_of_lookup_none l k h e (hp.mem_iff.mpr he)
  · have hm : (k, v) ∈ l' := hp.subset (ProcTable.lookup_mem l k v h)
    have hnd' : (l'.map Prod.fst).Nodup := ((hp.map Prod.fst).nodup_iff).mp hnd
    exact (ProcTable.lookup_of_mem_nodup l' hnd' k v hm).symm

theorem ProcTable.lookup_foldl_insertRec (l : List (Pid × process))
    (hnd : (l.map Prod.fst).Nodup) :
    ∀ (tb0 : ProcTable) (k : Pid),
      ProcTable.lookup (l.foldl (fun tb e => tb.insertRec e.1 e.2) tb0) k =
        (ProcTable.lookup l k).or (tb0.lookup k) := by
  induction l with
  | nil =>
    intro tb0 k
    simp [ProcTable.lookup, Option.none_or]
  | cons e rest ih =>
    intro tb0 k
    rw [List.map_cons, List.nodup_cons] at hnd
    rw [List.foldl_cons, ih hnd.2]
    by_cases hk : k = e.1
    · subst hk
      have hnone : ProcTable.lookup rest e.1 = none := by
        apply ProcTable.lookup_none_of_forall
        intro g hg
        intro hc
        exact hnd.1 (hc ▸ List.mem_map_of_mem Prod.fst hg)
      simp [ProcTable.lookup, hnone, ProcTable.lookup_insertRec_self]
    · rw [ProcTable.lookup_insertRec_ne tb0 e.1 k e.2 hk]
      simp [ProcTable.lookup, hk]

theorem ProcTable.lookup_ofList (l : List (Pid × process))
    (hnd : (l.map Prod.fst).Nodup) (k : Pid) :
    (ProcTable.ofList l).lookup k = ProcTable.lookup l k := by
  rw [ProcTable.ofList, ProcTable.lookup_foldl_insertRec l hnd]
  simp [ProcTable.lookup]

theorem ProcTable.ofList_perm {l l' : List (Pid × process)}
    (hnd : (l.map Prod.fst).Nodup) (hp : l.Perm l') :
    ProcTable.ofList l = ProcTable.ofList l' := by
  have hnd' : (l'.map Prod.fst).Nodup := ((hp.map Prod.fst).nodup_iff).mp hnd
  apply ProcTable.ext_sorted _ _ (ProcTable.ofList_sorted l)
    (ProcTable.ofList_sorted l')
  intro k
  rw [ProcTable.lookup_ofList l hnd k, ProcTable.lookup_ofList l' hnd' k]
  exact ProcTable.lookup_perm_nodup hp hnd k

/-! ## Claim C8: the pipeline output is order-independent -/

/-- The flattened output of the pipeline: build the tree from the table,
iterating the table keys in the given order, and flatten it from depth 0
(`none` when the build panics or diverges). -/
def flatOutput (tb : ProcTable) (ord : List Pid) (fuel : Nat) :
    Option (List (Nat × Pid)) :=
  match buildTreeGo tb fuel ord .nil with
  | .ok tr => some (tr.flatTree 0)
  | _ => none

/-- C8: the pipeline output is deterministic — presenting the same set of
table records in a different order before building (`l'` a permutation of
`l`), and iterating the table keys in a different order (`ord'` instead
of `ord`, both permutations of the key set), yields the same flattened
sequence; the output is a function of the set of table entries only. -/
theorem C8_output_order_invariant (l l' : List (Pid × process))
    (ord ord' : List Pid) (fuel : Nat) (out : List (Nat × Pid))
    (hnd : (l.map Prod.fst).Nodup)
    (hll : l.Perm l')
    (ho : ord.Perm (ProcTable.ofList l).keys)
    (ho' : ord'.Perm (ProcTable.ofList l).keys)
    (hout : flatOutput (ProcTable.ofList l) ord fuel = some out) :
    flatOutput (ProcTable.ofList l') ord' fuel = some out := by
  have htb : ProcTable.ofList l' = ProcTable.ofList l :=
    (ProcTable.ofList_perm hnd hll).symm
  rw [htb]
  rw [flatOutput] at hout ⊢
  rcases hb : buildTreeGo (ProcTable.ofList l) fuel ord .nil with tr | _ | _ <;>
    rw [hb] at hout
  case _ =>
    have hwalks := buildTreeGo_ok_walks (ProcTable.ofList l) fuel ord .nil tr hb
    have hwalks' : ∀ p ∈ ord', ∃ w, ancestorWalk (ProcTable.ofList l) fuel p [] = .ok w := by
      intro p hp
      exact hwalks p (ho.mem_iff.mpr (ho'.mem_iff.mp hp))
    have hfold := buildTreeGo_ok_foldl (ProcTable.ofList l) fuel ord .nil hwalks
    have hfold' := buildTreeGo_ok_foldl (ProcTable.ofList l) fuel ord' .nil hwalks'
    have hperm : ord.Perm ord' := ho.trans ho'.symm
    have heq := foldl_add_perm (pathD (ProcTable.ofList l) fuel) hperm
      processTree.nil
    rw [hfold] at hb
    injection hb with hb2
    rw [hfold', ← heq, hb2]
    exact hout
  case _ => cases hout
  case _ => cases hout

/-- C8 witness: a concrete instance — the fork table presented in two
different record orders, built with two different key iteration orders,
produces the same flattened sequence. -/
theorem C8_witness :
    flatOutput (ProcTable.ofList
      [(3, mkProc 3 1), (1, mkProc 1 0), (2, mkProc 2 1)]) [2, 3, 1] 9 =
      some [(0, 1), (1, 2), (1, 3)] :=
  C8_output_order_invariant
    [(1, mkProc 1 0), (2, mkProc 2 1), (3, mkProc 3 1)]
    [(3, mkProc 3 1), (1, mkProc 1 0), (2, mkProc 2 1)]
    [1, 2, 3] [2, 3, 1] 9 [(0, 1), (1, 2), (1, 3)]
    (by decide) (by decide) (by decide) (by decide) (by decide)

/-! ## Ancestor-walk lemmas: fuel monotonicity and the chain recurrence -/

theorem ancestorWalk_nonpos (tb : ProcTable) (fuel : Nat) (pid : Pid)
    (acc : List Pid) (hp : pid ≤ 0) :
    ancestorWalk tb fuel pid acc = .ok acc := by
  cases fuel <;> (rw [ancestorWalk]; simp [hp])

theorem ancestorWalk_none (tb : ProcTable) (fuel : Nat) (pid : Pid)
    (acc : List Pid) (hp : ¬ pid ≤ 0) (hl : tb.lookup pid = none) :
    ancestorWalk tb fuel pid acc = .panicked := by
  cases fuel <;> (rw [ancestorWalk]; simp [hp, hl])

theorem ancestorWalk_zero_some (tb : ProcTable) (pid : Pid)
    (acc : List Pid) (p : process) (hp : ¬ pid ≤ 0)
    (hl : tb.lookup pid = some p) :
    ancestorWalk tb 0 pid acc = .outOfFuel := by
  rw [ancestorWalk]; simp [hp, hl]

theorem ancestorWalk_succ_some (tb : ProcTable) (n : Nat) (pid : Pid)
    (acc : List Pid) (p : process) (hp : ¬ pid ≤ 0)
    (hl : tb.lookup pid = some p) :
    ancestorWalk tb (n + 1) pid acc =
      ancestorWalk tb n p.ppid (pid :: acc) := by
  rw [ancestorWalk]; simp [hp, hl]

theorem ancestorWalk_mono (tb : ProcTable) :
    ∀ (fuel fuel' : Nat) (pid : Pid) (acc l : List Pid), fuel ≤ fuel' →
      ancestorWalk tb fuel pid acc = .ok l →
      ancestorWalk tb fuel' pid acc = .ok l := by
  intro fuel
  induction fuel with
  | zero =>
    intro fuel' pid acc l _ h
    by_cases hp : pid ≤ 0
    · rw [ancestorWalk_nonpos tb 0 pid acc hp] at h
      obtain rfl : acc = l := by injection h
      exact ancestorWalk_nonpos tb fuel' pid acc hp
    · rcases hl : tb.lookup pid with _ | p
      · rw [ancestorWalk_none tb 0 pid acc hp hl] at h; cases h
      · rw [ancestorWalk_zero_some tb pid acc p hp hl] at h; cases h
  | succ n ih =>
    intro fuel' pid acc l hle h
    by_cases hp : pid ≤ 0
    · rw [ancestorWalk_nonpos tb (n + 1) pid acc hp] at h
      obtain rfl : acc = l := by injection h
      exact ancestorWalk_nonpos tb fuel' pid acc hp
    · rcases hl : tb.lookup pid with _ | p
      · rw [ancestorWalk_none tb (n + 1) pid acc hp hl] at h; cases h
      · rw [ancestorWalk_succ_some tb n pid acc p hp hl] at h
        obtain ⟨m, rfl⟩ : ∃ m, fuel' = m + 1 := ⟨fuel' - 1, by omega⟩
        rw [ancestorWalk_succ_some tb m pid acc p hp hl]
        exact ih m p.ppid (pid :: acc) l (by omega) h

theorem ancestorWalk_shift (tb : ProcTable) :
    ∀ (fuel : Nat) (pid : Pid) (acc : List Pid),
      ancestorWalk tb fuel pid acc =
        match ancestorWalk tb fuel pid [] with
        | .ok l => .ok (l ++ acc)
        | e => e := by
  intro fuel
  induction fuel with
  | zero =>
    intro pid acc
    by_cases hp : pid ≤ 0
    · rw [ancestorWalk_nonpos tb 0 pid acc hp,
        ancestorWalk_nonpos tb 0 pid [] hp]
      rfl
    · rcases hl : tb.lookup pid with _ | p
      · rw [ancestorWalk_none tb 0 pid acc hp hl,
          ancestorWalk_none tb 0 pid [] hp hl]
      · rw [ancestorWalk_zero_some tb pid acc p hp hl,
          ancestorWalk_zero_some tb pid [] p hp hl]
  | succ n ih =>
    intro pid acc
    by_cases hp : pid ≤ 0
    · rw [ancestorWalk_nonpos tb (n + 1) pid acc hp,
        ancestorWalk_nonpos tb (n + 1) pid [] hp]
      rfl
    · rcases hl : tb.lookup pid with _ | p
      · rw [ancestorWalk_none tb (n + 1) pid acc hp hl,
          ancestorWalk_none tb (n + 1) pid [] hp hl]
      · rw [ancestorWalk_succ_some tb n pid acc p hp hl,
          ancestorWalk_succ_some tb n pid [] p hp hl,
          ih p.ppid (pid :: acc), ih p.ppid [pid]]
        rcases hw : ancestorWalk tb n p.ppid [] with l | _ | _ <;>
          simp [List.append_assoc]

/-- The chain recurrence: for a live pid, the walk's result is the
parent's chain extended with the pid itself. -/
theorem ancestorWalk_step (tb : ProcTable) (n : Nat) (pid : Pid)
    (p : process) (hp : ¬ pid ≤ 0) (hl : tb.lookup pid = some p) :
    ancestorWalk tb (n + 1) pid [] =
      match ancestorWalk tb n p.ppid [] with
      | .ok l => .ok (l ++ [pid])
      | e => e := by
  rw [ancestorWalk_succ_some tb n pid [] p hp hl]
  exact ancestorWalk_shift tb n p.ppid [pid]

/-! ## Tree sortedness and membership -/

namespace processTree

/-- Strict key-sortedness at every level: the canonical-form invariant of
the map-of-maps embedding. -/
def sortedT : processTree → Prop
  | .nil => True
  | .cons k sub rest =>
    (∀ k' ∈ rest.keysTop, k < k') ∧ sub.sortedT ∧ rest.sortedT

theorem keysTop_insertT (t : processTree) (k : Pid) (v : processTree) :
    ∀ j ∈ (t.insertT k v).keysTop, j = k ∨ j ∈ t.keysTop := by
  induction t with
  | nil =>
    intro j hj
    simp only [insertT, keysTop] at hj
    rcases List.mem_cons.mp hj with rfl | hj
    · exact Or.inl rfl
    · cases hj
  | cons a sub rest ihs ihr =>
    intro j hj
    by_cases h1 : k < a
    · simp only [insertT, h1, if_true, keysTop] at hj
      rcases List.mem_cons.mp hj with rfl | hj
      · exact Or.inl rfl
      · exact Or.inr hj
    · by_cases h2 : k = a
      · subst h2
        simp only [insertT, lt_self_iff_false, eq_self_iff_true, if_false,
          if_true, keysTop] at hj
        rcases List.mem_cons.mp hj with rfl | hj
        · exact Or.inl rfl
        · exact Or.inr (by simp [keysTop, hj])
      · simp only [insertT, h1, h2, if_false, keysTop] at hj
        rcases List.mem_cons.mp hj with rfl | hj
        · exact Or.inr (by simp [keysTop])
        · rcases ihr j hj with h | h
          · exact Or.inl h
          · exact Or.inr (by simp [keysTop, h])

theorem insertT_sortedT (t : processTree) (k : Pid) (v : processTree)
    (ht : t.sortedT) (hv : v.sortedT) : (t.insertT k v).sortedT := by
  induction t with
  | nil =>
    refine ⟨?_, hv, trivial⟩
    intro j hj
    simp [keysTop] at hj
  | cons a sub rest ihs ihr =>
    rcases ht with ⟨ha, hsub, hrest⟩
    by_cases h1 : k < a
    · simp only [insertT, h1, if_true]
      refine ⟨?_, hv, ha, hsub, hrest⟩
      intro j hj
      rcases List.mem_cons.mp hj with rfl | hj
      · exact h1
      · exact lt_trans h1 (ha j hj)
    · by_cases h2 : k = a
      · subst h2
        simp only [insertT, lt_self_iff_false, eq_self_iff_true, if_false,
          if_true]
        exact ⟨ha, hv, hrest⟩
      · simp only [insertT, h1, h2, if_false]
        refine ⟨?_, hsub, ihr hrest⟩
        intro j hj
        rcases keysTop_insertT rest k v j hj with rfl | hj
        · rcases lt_trichotomy a j with h | h | h
          · exact h
          · exact absurd h.symm h2
          · exact absurd h h1
        · exact ha j hj

theorem lookup_sortedT (t : processTree) (k : Pid) (s : processTree)
    (ht : t.sortedT) (hl : t.lookup k = some s) : s.sortedT := by
  induction t with
  | nil => cases hl
  | cons a sub rest ihs ihr =>
    rcases ht with ⟨_, hsub, hrest⟩
    by_cases hk : k = a
    · simp only [lookup, hk, if_true] at hl
      obtain rfl : sub = s := by injection hl
      exact hsub
    · simp only [lookup, hk, if_false] at hl
      exact ihr hrest hl

theorem add_sortedT (path : List Pid) :
    ∀ t : processTree, t.sortedT → (t.add path).sortedT := by
  induction path with
  | nil => intro t ht; exact ht
  | cons a ks ih =>
    intro t ht
    simp only [add]
    apply insertT_sortedT t a _ ht
    apply ih
    rcases hl : t.lookup a with _ | s
    · simp [hl, sortedT]
    · simpa [hl] using lookup_sortedT t a s ht hl

theorem memB_of_lookup (t : processTree) (k q : Pid) (s : processTree)
    (hl : t.lookup k = some s) (hm : s.memB q = true) : t.memB q = true := by
  induction t with
  | nil => cases hl
  | cons a sub rest ihs ihr =>
    by_cases hk : k = a
    · simp only [lookup, hk, if_true] at hl
      obtain rfl : sub = s := by injection hl
      simp [memB, hm]
    · simp only [lookup, hk, if_false] at hl
      simp [memB, ihr hl]

theorem lookup_some_memB (t : processTree) (k : Pid) (s : processTree)
    (hl : t.lookup k = some s) : t.memB k = true := by
  induction t with
  | nil => cases hl
  | cons a sub rest ihs ihr =>
    by_cases hk : k = a
    · simp [memB, hk]
    · simp only [lookup, hk, if_false] at hl
      simp [memB, ihr hl]

theorem count_zero_iff (t : processTree) (q : Pid) :
    t.count q = 0 ↔ t.memB q = false := by
  induction t with
  | nil => simp [count, memB]
  | cons k sub rest ihs ihr =>
    by_cases hk : k = q
    · simp [count, memB, hk]
    · have hk' : (k == q) = false := by simp [hk]
      simp [count, memB, hk, hk', ihs, ihr]

theorem memB_insertT_superset (a : Pid) (X : processTree) :
    ∀ t : processTree,
      (∀ j, ((t.lookup a).getD .nil).memB j = true → X.memB j = true) →
      ∀ q, ((t.insertT a X).memB q = true) ↔
        (a = q ∨ X.memB q = true ∨ t.memB q = true) := by
  intro t
  induction t with
  | nil =>
    intro _ q
    simp only [insertT, memB, Bool.or_eq_true, beq_iff_eq]
    tauto
  | cons k sub rest ihs ihr =>
    intro hsup q
    by_cases h1 : a < k
    · simp only [insertT, h1, if_true, memB, Bool.or_eq_true, beq_iff_eq]
      tauto
    · by_cases h2 : a = k
      · subst h2
        have hsub : ∀ j, sub.memB j = true → X.memB j = true := by
          intro j hj
          apply hsup
          simpa [lookup] using hj
        simp only [insertT, lt_self_iff_false, eq_self_iff_true, if_false,
          if_true, memB, Bool.or_eq_true, beq_iff_eq]
        constructor
        · rintro ((h | h) | h)
          · exact Or.inl h
          · exact Or.inr (Or.inl h)
          · exact Or.inr (Or.inr (Or.inr h))
        · rintro (h | h | (h | h) | h)
          · exact Or.inl (Or.inl h)
          · exact Or.inl (Or.inr h)
          · exact Or.inl (Or.inl h)
          · exact Or.inl (Or.inr (hsub q h))
          · exact Or.inr h
      · have hsup' : ∀ j, ((rest.lookup a).getD .nil).memB j = true →
            X.memB j = true := by
          intro j hj
          apply hsup
          simpa [lookup, h2] using hj
        have hih := ihr hsup' q
        simp only [insertT, h1, h2, if_false, memB, Bool.or_eq_true,
          beq_iff_eq]
        rw [hih]
        tauto

theorem mem_add (s : List Pid) : ∀ (t : processTree) (q : Pid),
    ((t.add s).memB q = true) ↔ (t.memB q = true ∨ q ∈ s) := by
  induction s with
  | nil => intro t q; simp [add]
  | cons a ks ih =>
    intro t q
    simp only [add]
    have hsup : ∀ j, ((t.lookup a).getD .nil).memB j = true →
        (((t.lookup a).getD .nil).add ks).memB j = true := by
      intro j hj
      exact (ih _ j).mpr (Or.inl hj)
    rw [memB_insertT_superset a _ t hsup q, ih ((t.lookup a).getD .nil) q]
    constructor
    · rintro (rfl | (h | h) | h)
      · exact Or.inr (List.mem_cons_self a ks)
      · rcases hl : t.lookup a with _ | s0
        · rw [hl] at h; simp [memB] at h
        · rw [hl] at h; exact Or.inl (memB_of_lookup t a q s0 hl h)
      · exact Or.inr (List.mem_cons_of_mem a h)
      · exact Or.inl h
    · rintro (h | h)
      · exact Or.inr (Or.inr h)
      · rcases List.mem_cons.mp h with rfl | h
        · exact Or.inl rfl
        · exact Or.inr (Or.inl (Or.inr h))

end processTree

/-! ## The chain invariant: every key sits at its own ancestor chain -/

/-- `chainSuffix tb fuel ρ s`: the path `ρ ++ s` is chain-coherent below
the prefix `ρ` — every element's own ancestor walk produces exactly the
prefix of `ρ ++ s` ending at that element. -/
def chainSuffix (tb : ProcTable) (fuel : Nat) : List Pid → List Pid → Prop
  | _, [] => True
  | ρ, a :: s' =>
    ancestorWalk tb fuel a [] = .ok (ρ ++ [a]) ∧
      chainSuffix tb fuel (ρ ++ [a]) s'

/-- `underInv tb fuel ρ t`: the subtree `t` sits at position `ρ` of the
built tree and every key in it sits at exactly its own ancestor chain. -/
def underInv (tb : ProcTable) (fuel : Nat) : List Pid → processTree → Prop
  | _, .nil => True
  | ρ, .cons k sub rest =>
    ancestorWalk tb fuel k [] = .ok (ρ ++ [k]) ∧
      underInv tb fuel (ρ ++ [k]) sub ∧ underInv tb fuel ρ rest

theorem chainSuffix_mono (tb : ProcTable) (f f' : Nat) (hle : f ≤ f') :
    ∀ (s ρ : List Pid), chainSuffix tb f ρ s → chainSuffix tb f' ρ s := by
  intro s
  induction s with
  | nil => intro ρ _; trivial
  | cons a s' ih =>
    intro ρ h
    exact ⟨ancestorWalk_mono tb f f' a [] _ hle h.1, ih _ h.2⟩

theorem chainSuffix_snoc (tb : ProcTable) (fuel : Nat) :
    ∀ (s ρ : List Pid) (a : Pid), chainSuffix tb fuel ρ s →
      ancestorWalk tb fuel a [] = .ok (ρ ++ s ++ [a]) →
      chainSuffix tb fuel ρ (s ++ [a]) := by
  intro s
  induction s with
  | nil =>
    intro ρ a _ hw
    refine ⟨?_, trivial⟩
    simpa using hw
  | cons b s' ih =>
    intro ρ a h hw
    refine ⟨h.1, ih (ρ ++ [b]) a h.2 ?_⟩
    simpa [List.append_assoc] using hw

theorem chainSuffix_of_walk (tb : ProcTable) :
    ∀ (fuel : Nat) (p : Pid) (l : List Pid),
      ancestorWalk tb fuel p [] = .ok l → chainSuffix tb fuel [] l := by
  intro fuel
  induction fuel with
  | zero =>
    intro p l h
    by_cases hp : p ≤ 0
    · rw [ancestorWalk_nonpos tb 0 p [] hp] at h
      obtain rfl : [] = l := by injection h
      trivial
    · rcases hl : tb.lookup p with _ | pr
      · rw [ancestorWalk_none tb 0 p [] hp hl] at h; cases h
      · rw [ancestorWalk_zero_some tb p [] pr hp hl] at h; cases h
  | succ n ih =>
    intro p l h
    by_cases hp : p ≤ 0
    · rw [ancestorWalk_nonpos tb (n + 1) p [] hp] at h
      obtain rfl : [] = l := by injection h
      trivial
    · rcases hl : tb.lookup p with _ | pr
      · rw [ancestorWalk_none tb (n + 1) p [] hp hl] at h; cases h
      · have hst := ancestorWalk_step tb n p pr hp hl
        rw [hst] at h
        rcases hw : ancestorWalk tb n pr.ppid [] with l0 | _ | _ <;>
          rw [hw] at h
        · obtain rfl : l0 ++ [p] = l := by injection h
          have hcs : chainSuffix tb (n + 1) [] l0 :=
            chainSuffix_mono tb n (n + 1) (by omega) l0 []
              (ih pr.ppid l0 hw)
          apply chainSuffix_snoc tb (n + 1) l0 [] p hcs
          have : ancestorWalk tb (n + 1) p [] = .ok (l0 ++ [p]) := by
            rw [hst, hw]
          simpa using this
        · cases h
        · cases h

theorem underInv_lookup (tb : ProcTable) (fuel : Nat) :
    ∀ (t : processTree) (ρ : List Pid) (k : Pid) (s : processTree),
      underInv tb fuel ρ t → t.lookup k = some s →
      underInv tb fuel (ρ ++ [k]) s := by
  intro t
  induction t with
  | nil => intro ρ k s _ hl; cases hl
  | cons a sub rest ihs ihr =>
    intro ρ k s hinv hl
    by_cases hk : k = a
    · subst hk
      simp only [processTree.lookup, if_pos rfl] at hl
      obtain rfl : sub = s := by injection hl
      exact hinv.2.1
    · simp only [processTree.lookup, hk, if_false] at hl
      exact ihr ρ k s hinv.2.2 hl

theorem underInv_insertT (tb : ProcTable) (fuel : Nat) :
    ∀ (t : processTree) (ρ : List Pid) (a : Pid) (v : processTree),
      underInv tb fuel ρ t →
      ancestorWalk tb fuel a [] = .ok (ρ ++ [a]) →
      underInv tb fuel (ρ ++ [a]) v →
      underInv tb fuel ρ (t.insertT a v) := by
  intro t
  induction t with
  | nil =>
    intro ρ a v _ hw hv
    exact ⟨hw, hv, trivial⟩
  | cons k sub rest ihs ihr =>
    intro ρ a v hinv hw hv
    by_cases h1 : a < k
    · simp only [processTree.insertT, h1, if_true]
      exact ⟨hw, hv, hinv⟩
    · by_cases h2 : a = k
      · subst h2
        simp only [processTree.insertT, lt_self_iff_false, eq_self_iff_true,
          if_false, if_true]
        exact ⟨hw, hv, hinv.2.2⟩
      · simp only [processTree.insertT, h1, h2, if_false]
        exact ⟨hinv.1, hinv.2.1, ihr ρ a v hinv.2.2 hw hv⟩

theorem underInv_add (tb : ProcTable) (fuel : Nat) :
    ∀ (s : List Pid) (t : processTree) (ρ : List Pid),
      underInv tb fuel ρ t → chainSuffix tb fuel ρ s →
      underInv tb fuel ρ (t.add s) := by
  intro s
  induction s with
  | nil => intro t ρ h _; exact h
  | cons a ks ih =>
    intro t ρ ht hcs
    simp only [processTree.add]
    apply underInv_insertT tb fuel t ρ a _ ht hcs.1
    apply ih
    · rcases hl : t.lookup a with _ | s0
      · simp only [Option.getD_none]
        trivial
      · simpa using underInv_lookup tb fuel t ρ a s0 ht hl
    · exact hcs.2

theorem underInv_placement (tb : ProcTable) (fuel : Nat) :
    ∀ (t : processTree) (ρ : List Pid) (q : Pid),
      underInv tb fuel ρ t → t.memB q = true →
      ∃ k s, k ∈ t.keysTop ∧
        ancestorWalk tb fuel q [] = .ok (ρ ++ k :: s) := by
  intro t
  induction t with
  | nil =>
    intro ρ q _ hm
    simp [processTree.memB] at hm
  | cons a sub rest ihs ihr =>
    intro ρ q hinv hm
    simp only [processTree.memB, Bool.or_eq_true, beq_iff_eq] at hm
    rcases hm with (rfl | hm) | hm
    · exact ⟨a, [], by simp [processTree.keysTop], by simpa using hinv.1⟩
    · rcases ihs (ρ ++ [a]) q hinv.2.1 hm with ⟨k', s', _, hw⟩
      refine ⟨a, k' :: s', by simp [processTree.keysTop], ?_⟩
      simpa [List.append_assoc] using hw
    · rcases ihr ρ q hinv.2.2 hm with ⟨k', s', hk', hw⟩
      exact ⟨k', s', by simp [processTree.keysTop, hk'], hw⟩

theorem underInv_count (tb : ProcTable) (fuel : Nat) :
    ∀ (t : processTree) (ρ : List Pid) (q : Pid),
      t.sortedT → underInv tb fuel ρ t →
      t.count q = (if t.memB q = true then 1 else 0) := by
  intro t
  induction t with
  | nil =>
    intro ρ q _ _
    simp [processTree.count, processTree.memB]
  | cons a sub rest ihs ihr =>
    intro ρ q hs hinv
    rcases hs with ⟨ha, hssub, hsrest⟩
    have hsubc := ihs (ρ ++ [a]) q hssub hinv.2.1
    have hrestc := ihr ρ q hsrest hinv.2.2
    by_cases haq : a = q
    · subst haq
      have hwa : ancestorWalk tb fuel a [] = .ok (ρ ++ [a]) := hinv.1
      have hsub0 : sub.memB a = false := by
        cases hx : sub.memB a with
        | false => rfl
        | true =>
          rcases underInv_placement tb fuel sub (ρ ++ [a]) a hinv.2.1 hx
            with ⟨k', s', _, hw⟩
          have hcomb := hwa.symm.trans hw
          have heq : ρ ++ [a] = (ρ ++ [a]) ++ k' :: s' := by
            injection hcomb
          have hlen := congrArg List.length heq
          simp [List.length_append] at hlen
      have hrest0 : rest.memB a = false := by
        cases hx : rest.memB a with
        | false => rfl
        | true =>
          rcases underInv_placement tb fuel rest ρ a hinv.2.2 hx
            with ⟨k', s', hk', hw⟩
          have hcomb := hwa.symm.trans hw
          have heq : ρ ++ [a] = ρ ++ k' :: s' := by injection hcomb
          have h2 : [a] = k' :: s' := List.append_cancel_left heq
          obtain ⟨rfl, -⟩ : a = k' ∧ [] = s' := by
            injection h2 with h3 h4
            exact ⟨h3, h4⟩
          exact absurd (ha a hk') (lt_irrefl a)
      simp [processTree.count, processTree.memB, hsubc, hrestc, hsub0,
        hrest0]
    · cases hsubm : sub.memB q with
      | true =>
        rcases underInv_placement tb fuel sub (ρ ++ [a]) q hinv.2.1 hsubm
          with ⟨k1, s1, _, hw1⟩
        have hrest0 : rest.memB q = false := by
          cases hx : rest.memB q with
          | false => rfl
          | true =>
            rcases underInv_placement tb fuel rest ρ q hinv.2.2 hx
              with ⟨k2, s2, hk2, hw2⟩
            have hcomb := hw1.symm.trans hw2
            have heq : (ρ ++ [a]) ++ k1 :: s1 = ρ ++ k2 :: s2 := by
              injection hcomb
            have heq' : ρ ++ a :: k1 :: s1 = ρ ++ k2 :: s2 := by
              simpa [List.append_assoc] using heq
            have h2 : a :: k1 :: s1 = k2 :: s2 :=
              List.append_cancel_left heq'
            obtain ⟨rfl, -⟩ : a = k2 ∧ k1 :: s1 = s2 := by
              injection h2 with h3 h4
              exact ⟨h3, h4⟩
            exact absurd (ha a hk2) (lt_irrefl a)
        simp [processTree.count, processTree.memB, haq, hsubc, hrestc,
          hsubm, hrest0]
      | false =>
        cases hrestm : rest.memB q with
        | true =>
          simp [processTree.count, processTree.memB, haq, hsubc, hrestc,
            hsubm, hrestm]
        | false =>
          simp [processTree.count, processTree.memB, haq, hsubc, hrestc,
            hsubm, hrestm]

/-! ## Claim C5: every table id appears exactly once in the built tree -/

theorem ancestorWalk_self_mem (tb : ProcTable) :
    ∀ (fuel : Nat) (pid : Pid) (l : List Pid), ¬ pid ≤ 0 →
      ancestorWalk tb fuel pid [] = .ok l → pid ∈ l := by
  intro fuel
  cases fuel with
  | zero =>
    intro pid l hp h
    rcases hl : tb.lookup pid with _ | p
    · rw [ancestorWalk_none tb 0 pid [] hp hl] at h; cases h
    · rw [ancestorWalk_zero_some tb pid [] p hp hl] at h; cases h
  | succ n =>
    intro pid l hp h
    rcases hl : tb.lookup pid with _ | p
    · rw [ancestorWalk_none tb (n + 1) pid [] hp hl] at h; cases h
    · rw [ancestorWalk_step tb n pid p hp hl] at h
      rcases hw : ancestorWalk tb n p.ppid [] with l0 | _ | _ <;>
        rw [hw] at h
      · obtain rfl : l0 ++ [pid] = l := by injection h
        simp
      · cases h
      · cases h

theorem buildTree_fold_inv (tb : ProcTable) (fuel : Nat) :
    ∀ (order : List Pid) (t : processTree),
      (∀ p ∈ order, ∃ l, ancestorWalk tb fuel p [] = .ok l) →
      t.sortedT → underInv tb fuel [] t →
      (order.foldl (fun tr p => tr.add (pathD tb fuel p)) t).sortedT ∧
        underInv tb fuel []
          (order.foldl (fun tr p => tr.add (pathD tb fuel p)) t) := by
  intro order
  induction order with
  | nil => intro t _ hs hi; exact ⟨hs, hi⟩
  | cons p rest ih =>
    intro t h hs hi
    rw [List.foldl_cons]
    obtain ⟨l, hl⟩ := h p (List.mem_cons_self p rest)
    have hpd : pathD tb fuel p = l := by rw [pathD, hl]
    apply ih (t.add (pathD tb fuel p))
      (fun q hq => h q (List.mem_cons_of_mem p hq))
    · exact processTree.add_sortedT _ t hs
    · rw [hpd]
      exact underInv_add tb fuel l t [] hi
        (chainSuffix_of_walk tb fuel p l hl)

theorem memB_foldl_mono (tb : ProcTable) (fuel : Nat) :
    ∀ (order : List Pid) (t : processTree) (q : Pid),
      t.memB q = true →
      (order.foldl (fun tr p => tr.add (pathD tb fuel p)) t).memB q =
        true := by
  intro order
  induction order with
  | nil => intro t q h; exact h
  | cons p rest ih =>
    intro t q h
    rw [List.foldl_cons]
    exact ih _ q ((processTree.mem_add _ _ q).mpr (Or.inl h))

theorem memB_foldl_of_mem (tb : ProcTable) (fuel : Nat) :
    ∀ (order : List Pid) (t : processTree) (q : Pid), q ∈ order →
      (∀ p ∈ order, ∃ l, ancestorWalk tb fuel p [] = .ok l) → 0 < q →
      (order.foldl (fun tr p => tr.add (pathD tb fuel p)) t).memB q =
        true := by
  intro order
  induction order with
  | nil => intro t q hq; cases hq
  | cons p rest ih =>
    intro t q hq hwalks hqpos
    rcases List.mem_cons.mp hq with rfl | hq'
    · obtain ⟨l, hl⟩ := hwalks q (List.mem_cons_self q rest)
      have hpd : pathD tb fuel q = l := by rw [pathD, hl]
      rw [List.foldl_cons]
      apply memB_foldl_mono
      rw [hpd]
      exact (processTree.mem_add l t q).mpr
        (Or.inr (ancestorWalk_self_mem tb fuel q l
          (not_le.mpr hqpos) hl))
    · rw [List.foldl_cons]
      exact ih _ q hq'
        (fun p' hp' => hwalks p' (List.mem_cons_of_mem p hp')) hqpos

/-- C5: for every non-empty process table with positive ids whose parent
chains all terminate (`buildTree` succeeds), every id in the table
appears exactly once in the built tree: no id is duplicated across
branches and no table id is missing. -/
theorem C5_each_table_id_exactly_once (tb : ProcTable) (fuel : Nat)
    (tr : processTree)
    (_hne : tb ≠ [])
    (hpos : ∀ q ∈ tb.keys, 0 < q)
    (hb : buildTree tb fuel = .ok tr) :
    ∀ q ∈ tb.keys, tr.count q = 1 := by
  intro q hq
  have hwalks := buildTreeGo_ok_walks tb fuel tb.keys .nil tr hb
  have hfold := buildTreeGo_ok_foldl tb fuel tb.keys .nil hwalks
  rw [buildTree, hfold] at hb
  injection hb with hb2
  have hprops := buildTree_fold_inv tb fuel tb.keys .nil hwalks
    (by trivial) (by trivial)
  have hmem := memB_foldl_of_mem tb fuel tb.keys .nil q hq hwalks
    (hpos q hq)
  rw [← hb2, underInv_count tb fuel _ [] q hprops.1 hprops.2, if_pos hmem]

/-- C5 witness: on the scenario table each id, e.g. 3 and 4, occurs
exactly once in the built tree. -/
theorem C5_witness : treeScenario.count 4 = 1 ∧ treeScenario.count 3 = 1 :=
  ⟨C5_each_table_id_exactly_once tbScenario 9 treeScenario (by decide)
      (by decide) (by decide) 4 (by decide),
    C5_each_table_id_exactly_once tbScenario 9 treeScenario (by decide)
      (by decide) (by decide) 3 (by decide)⟩

/-! ## `findTree` and `findPath`; wrapped ancestor chains -/

theorem findTree_eq_findPath : ∀ (t : processTree) (q : Pid),
    t.findTree q =
      (t.findPath q).map (fun x => processTree.cons q x.2 .nil) := by
  intro t
  induction t with
  | nil => intro q; rfl
  | cons k sub rest ihs ihr =>
    intro q
    by_cases hk : k = q
    · subst hk
      simp [processTree.findTree, processTree.findPath]
    · simp only [processTree.findTree, processTree.findPath, hk, if_false]
      rw [ihs q]
      rcases sub.findPath q with _ | x
      · simp [ihr q]
      · simp

theorem findPath_of_memB : ∀ (t : processTree) (q : Pid),
    t.memB q = true → ∃ p s, t.findPath q = some (p, s) := by
  intro t
  induction t with
  | nil => intro q hm; simp [processTree.memB] at hm
  | cons k sub rest ihs ihr =>
    intro q hm
    by_cases hk : k = q
    · subst hk
      exact ⟨[k], sub, by simp [processTree.findPath]⟩
    · simp only [processTree.memB, Bool.or_eq_true, beq_iff_eq] at hm
      rcases hm with (h | h) | h
      · exact absurd h hk
      · rcases ihs q h with ⟨p, s, hp⟩
        exact ⟨k :: p, s, by simp [processTree.findPath, hk, hp]⟩
      · rcases hps : sub.findPath q with _ | x
        · rcases ihr q h with ⟨p, s, hp⟩
          exact ⟨p, s, by simp [processTree.findPath, hk, hps, hp]⟩
        · exact ⟨k :: x.1, x.2, by simp [processTree.findPath, hk, hps]⟩

theorem findPath_chain (tb : ProcTable) (fuel : Nat) :
    ∀ (t : processTree) (ρ : List Pid) (q : Pid) (p : List Pid)
      (s : processTree),
      underInv tb fuel ρ t → t.findPath q = some (p, s) →
      ancestorWalk tb fuel q [] = .ok (ρ ++ p) := by
  intro t
  induction t with
  | nil => intro ρ q p s _ hf; cases hf
  | cons k sub rest ihs ihr =>
    intro ρ q p s hinv hf
    by_cases hk : k = q
    · subst hk
      simp only [processTree.findPath, if_pos rfl] at hf
      obtain ⟨rfl, rfl⟩ : [k] = p ∧ sub = s := by
        injection hf with h1
        injection h1 with h2 h3
        exact ⟨h2, h3⟩
      exact hinv.1
    · simp only [processTree.findPath, hk, if_false] at hf
      rcases hps : sub.findPath q with _ | x <;> rw [hps] at hf
      · exact ihr ρ q p s hinv.2.2 hf
      · obtain ⟨rfl, rfl⟩ : k :: x.1 = p ∧ x.2 = s := by
          injection hf with h1
          injection h1 with h2 h3
          exact ⟨h2, h3⟩
        have := ihs (ρ ++ [k]) q x.1 x.2 hinv.2.1 (by rw [hps])
        simpa [List.append_assoc] using this

/-- The nested single-entry chain `Main` builds around a found subtree:
`wrapChain [r, …, a₁] core` is `{r: {… {a₁: core}}}` (root outermost). -/
def wrapChain : List Pid → processTree → processTree
  | [], core => core
  | a :: as, core => processTree.cons a (wrapChain as core) .nil

theorem wrapChain_snoc (a : Pid) (core : processTree) :
    ∀ l : List Pid,
      wrapChain (l ++ [a]) core = wrapChain l (processTree.cons a core .nil) := by
  intro l
  induction l with
  | nil => rfl
  | cons b l ih => simp [wrapChain, ih]

theorem keysAll_wrapChain (core : processTree) :
    ∀ l : List Pid, (wrapChain l core).keysAll = l ++ core.keysAll := by
  intro l
  induction l with
  | nil => rfl
  | cons a as ih => simp [wrapChain, processTree.keysAll, ih]

theorem wrapLoop_nonpos (tb : ProcTable) (fuel : Nat) (pid : Pid)
    (trb : processTree) (hp : pid ≤ 0) :
    wrapLoop tb fuel pid trb = .ok trb := by
  cases fuel <;> (rw [wrapLoop]; simp [hp])

theorem wrapLoop_succ_some (tb : ProcTable) (n : Nat) (pid : Pid)
    (trb : processTree) (p : process) (hp : ¬ pid ≤ 0)
    (hl : tb.lookup pid = some p) :
    wrapLoop tb (n + 1) pid trb =
      wrapLoop tb n p.ppid (processTree.cons pid trb .nil) := by
  rw [wrapLoop]; simp [hp, hl]

theorem wrapLoop_of_walk (tb : ProcTable) :
    ∀ (fuel : Nat) (pid : Pid) (l : List Pid) (core : processTree),
      ancestorWalk tb fuel pid [] = .ok l →
      wrapLoop tb fuel pid core = .ok (wrapChain l core) := by
  intro fuel
  induction fuel with
  | zero =>
    intro pid l core h
    by_cases hp : pid ≤ 0
    · rw [ancestorWalk_nonpos tb 0 pid [] hp] at h
      obtain rfl : [] = l := by injection h
      exact wrapLoop_nonpos tb 0 pid core hp
    · rcases hl : tb.lookup pid with _ | p
      · rw [ancestorWalk_none tb 0 pid [] hp hl] at h; cases h
      · rw [ancestorWalk_zero_some tb pid [] p hp hl] at h; cases h
  | succ n ih =>
    intro pid l core h
    by_cases hp : pid ≤ 0
    · rw [ancestorWalk_nonpos tb (n + 1) pid [] hp] at h
      obtain rfl : [] = l := by injection h
      exact wrapLoop_nonpos tb (n + 1) pid core hp
    · rcases hl : tb.lookup pid with _ | p
      · rw [ancestorWalk_none tb (n + 1) pid [] hp hl] at h; cases h
      · rw [ancestorWalk_step tb n pid p hp hl] at h
        rcases hw : ancestorWalk tb n p.ppid [] with l0 | _ | _ <;>
          rw [hw] at h
        · obtain rfl : l0 ++ [pid] = l := by injection h
          rw [wrapLoop_succ_some tb n pid core p hp hl,
            ih p.ppid l0 (processTree.cons pid core .nil) hw,
            wrapChain_snoc]
        · cases h
        · cases h

theorem spliceLoop_nil_single (a : Pid) (X : processTree) :
    spliceLoop .nil (processTree.cons a X .nil) =
      .ok (processTree.cons a X .nil) := by
  simp [spliceLoop, processTree.lookup, processTree.insertT]

theorem wrapChain_shape (t : Pid) (s : processTree) :
    ∀ l : List Pid, ∃ a X,
      wrapChain l (processTree.cons t s .nil) = processTree.cons a X .nil := by
  intro l
  cases l with
  | nil => exact ⟨t, s, rfl⟩
  | cons a as => exact ⟨a, wrapChain as (processTree.cons t s .nil), rfl⟩

theorem lookup_isSome_of_mem_keys :
    ∀ (tb : ProcTable) (q : Pid), q ∈ tb.keys →
      (tb.lookup q).isSome = true := by
  intro tb
  induction tb with
  | nil => intro q hq; cases hq
  | cons e rest ih =>
    intro q hq
    by_cases he : q = e.1
    · simp [ProcTable.lookup, he]
    · rcases List.mem_cons.mp hq with h | h
      · exact absurd h he
      · simp only [ProcTable.lookup, he, if_false]
        exact ih q h

theorem mainLoop_cons_found (tb : ProcTable) (tr : processTree)
    (fuel : Nat) (pid : Pid) (rest : List Pid) (tra : processTree)
    (h : (tra.findTree pid).isSome = true) :
    mainLoop tb tr fuel (pid :: rest) tra = mainLoop tb tr fuel rest tra := by
  rw [mainLoop]
  simp [h]

theorem mainLoop_cons_new (tb : ProcTable) (tr : processTree)
    (fuel : Nat) (pid : Pid) (rest : List Pid) (tra : processTree)
    (h : (tra.findTree pid).isSome = false) :
    mainLoop tb tr fuel (pid :: rest) tra =
      (match tb.lookup pid with
       | none => .panicNil
       | some p =>
         match wrapLoop tb fuel p.ppid ((tr.findTree pid).getD .nil) with
         | .panicked => .panicNil
         | .outOfFuel => .outOfFuel
         | .ok trb =>
           match spliceLoop tra trb with
           | .ok tra' => mainLoop tb tr fuel rest tra'
           | e => e) := by
  rw [mainLoop]
  simp [h]

theorem MainGo_ok (tb : ProcTable) (fps : List Pid) (fuel : Nat)
    (tr : processTree) (hb : buildTree tb fuel = .ok tr) :
    MainGo tb fps fuel = mainLoop tb tr fuel (mainTargets tb fps) .nil := by
  rw [MainGo, hb]

theorem mainLoop_cons_new_ok (tb : ProcTable) (tr : processTree)
    (fuel : Nat) (pid : Pid) (rest : List Pid) (tra : processTree)
    (pr : process) (trb res : processTree)
    (hfind : (tra.findTree pid).isSome = false)
    (hlt : tb.lookup pid = some pr)
    (hwrap : wrapLoop tb fuel pr.ppid ((tr.findTree pid).getD .nil) =
      .ok trb)
    (hsplice : spliceLoop tra trb = .ok res) :
    mainLoop tb tr fuel (pid :: rest) tra =
      mainLoop tb tr fuel rest res := by
  rw [mainLoop]
  simp [hfind, hlt, hwrap, hsplice]

/-! ## Claim C1: the restricted forest versus the union of families -/

/-- C1 counterexample: on the table `{1→0, 2→1, 3→1}` with requested
pids `[2, 1]` (all valid), `Main`'s restricted tree is `{1: {2}}` — it
omits 3 even though 3 belongs to `family(tree, 1)` — and the result
differs from the one for the same target set in order `[1, 2]`, so the
claimed order-independent union-of-families guarantee is false. -/
theorem C1_counterexample :
    MainGo tbFork [2, 1] 9 =
      .ok (.cons 1 (.cons 2 .nil .nil) .nil) ∧
    (processTree.cons 1 (.cons 2 .nil .nil) .nil).memB 3 = false ∧
    buildTree tbFork 9 =
      .ok (.cons 1 (.cons 2 .nil (.cons 3 .nil .nil)) .nil) ∧
    3 ∈ spec_family (.cons 1 (.cons 2 .nil (.cons 3 .nil .nil)) .nil) 1 ∧
    MainGo tbFork [1, 2] 9 ≠ MainGo tbFork [2, 1] 9 := by
  refine ⟨by decide, by decide, by decide, by decide, by decide⟩

/-- C1 (amended): for a single valid target `t` on a table of positive
pids whose chains terminate, the restricted tree computed by `Main`
contains exactly `family(tree, t)` — `t`, its ancestors up to a root and
its full subtree.  (With several targets, the guarantee fails; see the
counterexample.) -/
theorem C1_amended_single_target (tb : ProcTable) (fuel : Nat)
    (t : Pid) (tr : processTree)
    (hpos : ∀ q ∈ tb.keys, 0 < q)
    (hb : buildTree tb fuel = .ok tr)
    (ht : t ∈ tb.keys) :
    ∃ T, MainGo tb [t] fuel = .ok T ∧ T.keysAll = spec_family tr t := by
  have hwalks := buildTreeGo_ok_walks tb fuel tb.keys .nil tr hb
  have hfold := buildTreeGo_ok_foldl tb fuel tb.keys .nil hwalks
  have hb' := hb
  rw [buildTree, hfold] at hb'
  injection hb' with hb2
  have hprops := buildTree_fold_inv tb fuel tb.keys .nil hwalks
    (by trivial) (by trivial)
  have hinv : underInv tb fuel [] tr := hb2 ▸ hprops.2
  have htpos := hpos t ht
  have hmem : tr.memB t = true := by
    rw [← hb2]
    exact memB_foldl_of_mem tb fuel tb.keys .nil t ht hwalks htpos
  -- the walk of t itself
  obtain ⟨lt0, hwt⟩ := hwalks t ht
  -- find the subtree of t
  obtain ⟨p, s, hfp⟩ := findPath_of_memB tr t hmem
  have hft : tr.findTree t = some (processTree.cons t s .nil) := by
    rw [findTree_eq_findPath, hfp]
    rfl
  -- the spec family and the chain agree
  have hchain : ancestorWalk tb fuel t [] = .ok p :=
    by simpa using findPath_chain tb fuel tr [] t p s hinv hfp
  -- target selection keeps exactly [t]
  have hsome := lookup_isSome_of_mem_keys tb t ht
  have htargets : mainTargets tb [t] = [t] := by
    simp [mainTargets, hsome]
  -- the table entry of t
  rcases hlt : tb.lookup t with _ | pr
  · rw [hlt] at hsome; cases hsome
  -- fuel is at least 1 since the walk of t succeeded
  obtain ⟨n, rfl⟩ : ∃ n, fuel = n + 1 := by
    cases fuel with
    | zero =>
      rw [ancestorWalk_zero_some tb t [] pr (not_le.mpr htpos) hlt]
        at hchain
      cases hchain
    | succ n => exact ⟨n, rfl⟩
  -- decompose the chain of t
  rw [ancestorWalk_step tb n t pr (not_le.mpr htpos) hlt] at hchain
  rcases hw0 : ancestorWalk tb n pr.ppid [] with l0 | _ | _ <;>
    rw [hw0] at hchain
  case _ =>
    obtain rfl : l0 ++ [t] = p := by injection hchain
    have hw0' : ancestorWalk tb (n + 1) pr.ppid [] = .ok l0 :=
      ancestorWalk_mono tb n (n + 1) pr.ppid [] l0 (by omega) hw0
    -- assemble the Main run
    refine ⟨wrapChain l0 (processTree.cons t s .nil), ?_, ?_⟩
    · have hwrap : wrapLoop tb (n + 1) pr.ppid
          ((tr.findTree t).getD .nil) =
          .ok (wrapChain l0 (processTree.cons t s .nil)) := by
        rw [hft]
        exact wrapLoop_of_walk tb (n + 1) pr.ppid l0
          (processTree.cons t s .nil) hw0'
      have hsplice : spliceLoop .nil
          (wrapChain l0 (processTree.cons t s .nil)) =
          .ok (wrapChain l0 (processTree.cons t s .nil)) := by
        obtain ⟨a, X, hshape⟩ := wrapChain_shape t s l0
        rw [hshape]
        exact spliceLoop_nil_single a X
      rw [MainGo_ok tb [t] (n + 1) tr hb, htargets,
        mainLoop_cons_new_ok tb tr (n + 1) t [] .nil pr _ _ (by rfl) hlt
          hwrap hsplice,
        mainLoop]
    · rw [keysAll_wrapChain, spec_family, hfp]
      simp [processTree.keysAll, List.append_assoc]
  case _ => cases hchain
  case _ => cases hchain

/-- C1 witness: the spec's `-pids 4` scenario — the amended theorem
instantiated on the scenario table with single target 4; the family of 4
in the scenario tree is exactly {1, 2, 4}. -/
theorem C1_witness :
    (∃ T, MainGo tbScenario [4] 9 = .ok T ∧
        T.keysAll = spec_family treeScenario 4) ∧
    spec_family treeScenario 4 = [1, 2, 4] :=
  ⟨C1_amended_single_target tbScenario 9 4 treeScenario (by decide)
      (by decide) (by decide),
    by decide⟩

/-! ## Claim C9: `findTree` shape and the unreachable panic guard -/

theorem findTree_none_iff : ∀ (t : processTree) (n : Pid),
    t.findTree n = none ↔ t.memB n = false := by
  intro t
  induction t with
  | nil => intro n; simp [processTree.findTree, processTree.memB]
  | cons k sub rest ihs ihr =>
    intro n
    by_cases hk : k = n
    · subst hk
      simp [processTree.findTree, processTree.memB]
    · simp only [processTree.findTree, processTree.memB, hk, if_false]
      rcases hs : sub.findTree n with _ | r
      · have hsub := (ihs n).mp hs
        simp [hsub, ihr n, hk]
      · have hmem : sub.memB n = true := by
          cases hm : sub.memB n with
          | true => rfl
          | false => exact absurd ((ihs n).mpr hm) (by simp [hs])
        simp [hmem]

theorem findTree_some_shape : ∀ (t r : processTree) (n : Pid),
    t.findTree n = some r →
    ∃ sub, r = processTree.cons n sub .nil ∧ t.hasSub n sub := by
  intro t
  induction t with
  | nil => intro r n h; cases h
  | cons k sub rest ihs ihr =>
    intro r n h
    by_cases hk : k = n
    · subst hk
      simp only [processTree.findTree, if_pos rfl] at h
      obtain rfl : processTree.cons k sub .nil = r := by injection h
      exact ⟨sub, rfl, Or.inl ⟨rfl, rfl⟩⟩
    · simp only [processTree.findTree, hk, if_false] at h
      rcases hs : sub.findTree n with _ | r' <;> rw [hs] at h
      · rcases ihr r n h with ⟨s', hr, hh⟩
        exact ⟨s', hr, Or.inr (Or.inr hh)⟩
      · have hrr : r' = r := by injection h
        rcases ihs r' n hs with ⟨s', hr, hh⟩
        exact ⟨s', hrr ▸ hr, Or.inr (Or.inl hh)⟩

/-- The shape of every tree `Main` splices: a nested chain of
single-entry maps, ending at a found subtree `{target: …}` or at an
empty map. -/
inductive ChainW (target : Pid) : processTree → Prop
  | base0 : ChainW target .nil
  | base (s : processTree) : ChainW target (.cons target s .nil)
  | wrap (a : Pid) (T : processTree) :
      ChainW target T → ChainW target (.cons a T .nil)

theorem wrapLoop_none (tb : ProcTable) (fuel : Nat) (pid : Pid)
    (trb : processTree) (hp : ¬ pid ≤ 0) (hl : tb.lookup pid = none) :
    wrapLoop tb fuel pid trb = .panicked := by
  cases fuel <;> (rw [wrapLoop]; simp [hp, hl])

theorem wrapLoop_zero_some (tb : ProcTable) (pid : Pid)
    (trb : processTree) (p : process) (hp : ¬ pid ≤ 0)
    (hl : tb.lookup pid = some p) :
    wrapLoop tb 0 pid trb = .outOfFuel := by
  rw [wrapLoop]; simp [hp, hl]

theorem wrapLoop_chainW (tb : ProcTable) (target : Pid) :
    ∀ (fuel : Nat) (pid : Pid) (trb W : processTree),
      ChainW target trb → wrapLoop tb fuel pid trb = .ok W →
      ChainW target W := by
  intro fuel
  induction fuel with
  | zero =>
    intro pid trb W hc h
    by_cases hp : pid ≤ 0
    · rw [wrapLoop_nonpos tb 0 pid trb hp] at h
      obtain rfl : trb = W := by injection h
      exact hc
    · rcases hl : tb.lookup pid with _ | p
      · rw [wrapLoop_none tb 0 pid trb hp hl] at h; cases h
      · rw [wrapLoop_zero_some tb pid trb p hp hl] at h; cases h
  | succ n ih =>
    intro pid trb W hc h
    by_cases hp : pid ≤ 0
    · rw [wrapLoop_nonpos tb (n + 1) pid trb hp] at h
      obtain rfl : trb = W := by injection h
      exact hc
    · rcases hl : tb.lookup pid with _ | p
      · rw [wrapLoop_none tb (n + 1) pid trb hp hl] at h; cases h
      · rw [wrapLoop_succ_some tb n pid trb p hp hl] at h
        exact ih p.ppid _ W (ChainW.wrap pid trb hc) h

theorem splice_no_panicLen (target : Pid) :
    ∀ T : processTree, ChainW target T →
      ∀ trc : processTree, trc.memB target = false →
        spliceLoop trc T ≠ .panicLen := by
  intro T hc
  induction hc with
  | base0 =>
    intro trc _ h
    simp [spliceLoop] at h
  | base s =>
    intro trc hm h
    rcases hl : trc.lookup target with _ | tre
    · simp [spliceLoop, hl] at h
    · exact absurd (processTree.lookup_some_memB trc target tre hl)
        (by simp [hm])
  | wrap a T hcT ih =>
    intro trc hm h
    rcases hl : trc.lookup a with _ | tre
    · simp [spliceLoop, hl] at h
    · have hmem' : tre.memB target = false := by
        cases hx : tre.memB target with
        | false => rfl
        | true =>
          exact absurd (processTree.memB_of_lookup trc a target tre hl hx)
            (by simp [hm])
      rcases hsp : spliceLoop tre T with x | _ | _ | _ | _
      · simp [spliceLoop, hl, hsp] at h
      · simp [spliceLoop, hl, hsp] at h
      · exact ih tre hmem' hsp
      · simp [spliceLoop, hl, hsp] at h
      · simp [spliceLoop, hl, hsp] at h

theorem mainLoop_no_panicLen (tb : ProcTable) (tr : processTree)
    (fuel : Nat) :
    ∀ (targets : List Pid) (tra : processTree),
      mainLoop tb tr fuel targets tra ≠ .panicLen := by
  intro targets
  induction targets with
  | nil => intro tra h; simp [mainLoop] at h
  | cons pid rest ih =>
    intro tra h
    rcases hfind : (tra.findTree pid).isSome with _ | _
    · rcases hlt : tb.lookup pid with _ | pr
      · have heq : mainLoop tb tr fuel (pid :: rest) tra = .panicNil := by
          rw [mainLoop]; simp [hfind, hlt]
        rw [heq] at h; cases h
      · rcases hwrap : wrapLoop tb fuel pr.ppid
            ((tr.findTree pid).getD .nil) with trb | _ | _
        · rcases hsp : spliceLoop tra trb with x | _ | _ | _ | _
          · rw [mainLoop_cons_new_ok tb tr fuel pid rest tra pr trb x
              hfind hlt hwrap hsp] at h
            exact ih x h
          · have heq : mainLoop tb tr fuel (pid :: rest) tra = .panicNil := by
              rw [mainLoop]; simp [hfind, hlt, hwrap, hsp]
            rw [heq] at h; cases h
          · have hchain : ChainW pid trb := by
              apply wrapLoop_chainW tb pid fuel pr.ppid _ trb _ hwrap
              rcases hft : tr.findTree pid with _ | r
              · simpa using ChainW.base0
              · rcases findTree_some_shape tr r pid hft with ⟨sub, hr, _⟩
                rw [hr]
                simpa using ChainW.base sub
            have hmemF : tra.memB pid = false := by
              rcases hnone : tra.findTree pid with _ | r
              · exact (findTree_none_iff tra pid).mp hnone
              · rw [hnone] at hfind; cases hfind
            exact splice_no_panicLen pid trb hchain tra hmemF hsp
          · have heq : mainLoop tb tr fuel (pid :: rest) tra = .hang := by
              rw [mainLoop]; simp [hfind, hlt, hwrap, hsp]
            rw [heq] at h; cases h
          · have heq : mainLoop tb tr fuel (pid :: rest) tra =
                .outOfFuel := by
              rw [mainLoop]; simp [hfind, hlt, hwrap, hsp]
            rw [heq] at h; cases h
        · have heq : mainLoop tb tr fuel (pid :: rest) tra = .panicNil := by
            rw [mainLoop]; simp [hfind, hlt, hwrap]
          rw [heq] at h; cases h
        · have heq : mainLoop tb tr fuel (pid :: rest) tra =
              .outOfFuel := by
            rw [mainLoop]; simp [hfind, hlt, hwrap]
          rw [heq] at h; cases h
    · rw [mainLoop_cons_found tb tr fuel pid rest tra hfind] at h
      exact ih tra h

theorem MainGo_no_panicLen (tb : ProcTable) (fps : List Pid)
    (fuel : Nat) : MainGo tb fps fuel ≠ .panicLen := by
  intro h
  rw [MainGo] at h
  rcases hb : buildTree tb fuel with tr | _ | _ <;> rw [hb] at h
  · exact mainLoop_no_panicLen tb tr fuel (mainTargets tb fps) .nil h
  · cases h
  · cases h

/-- C9: `findTree` returns `nil` exactly when the sought node occurs
nowhere in the tree, and otherwise a tree with exactly one top-level
entry, keyed by the sought node and mapping to that node's subtree;
consequently every subtree `Main` splices has at most one top node and
the `len > 1` panic guard is unreachable for every table, flag list and
fuel. -/
theorem C9_findTree_shape_and_no_len_panic :
    (∀ (t : processTree) (n : Pid),
        t.findTree n = none ↔ t.memB n = false) ∧
    (∀ (t r : processTree) (n : Pid), t.findTree n = some r →
        ∃ sub, r = processTree.cons n sub .nil ∧ t.hasSub n sub) ∧
    (∀ (tb : ProcTable) (fps : List Pid) (fuel : Nat),
        MainGo tb fps fuel ≠ .panicLen) :=
  ⟨findTree_none_iff, findTree_some_shape, MainGo_no_panicLen⟩

/-- C9 witness: on the scenario tree, `findTree 2` returns the
single-entry tree `{2: {4}}`, whose entry is the subtree at 2. -/
theorem C9_witness :
    ∃ sub, processTree.cons 2 (processTree.cons 4 .nil .nil) .nil =
        processTree.cons 2 sub .nil ∧ treeScenario.hasSub 2 sub :=
  C9_findTree_shape_and_no_len_panic.2.1 treeScenario
    (processTree.cons 2 (processTree.cons 4 .nil .nil) .nil) 2 (by decide)

/-! ## Claim C10: the pid-1 fallback and its crash requirement -/

/-- C10: when the `-pids` flag is omitted or none of the given pids are
in the table, `Main` substitutes the single target pid 1; the ancestor
wrap for that fallback dereferences `tb[1]`, so when pid 1 is absent from
the table the run panics (nil `*process` dereference) instead of
printing. -/
theorem C10_fallback_requires_pid1 (tb : ProcTable)
    (flagPids : List Pid) (fuel : Nat) (tr : processTree)
    (hinv : ∀ p ∈ flagPids, tb.lookup p = none)
    (h1 : tb.lookup 1 = none)
    (hb : buildTree tb fuel = .ok tr) :
    mainTargets tb flagPids = [1] ∧
      MainGo tb flagPids fuel = .panicNil := by
  have htargets : mainTargets tb flagPids = [1] := by
    have hfilter : flagPids.filter (fun p => (tb.lookup p).isSome) = [] := by
      rw [List.filter_eq_nil_iff]
      intro a ha
      simp [hinv a ha]
    simp [mainTargets, hfilter]
  refine ⟨htargets, ?_⟩
  rw [MainGo_ok tb flagPids fuel tr hb, htargets,
    mainLoop_cons_new tb tr fuel 1 [] .nil (by rfl), h1]

/-- C10 witness: on the table `{2→0}` with requested pid 7 (unknown),
the fallback target is pid 1 and the run panics because 1 is absent. -/
theorem C10_witness :
    mainTargets [((2 : Pid), mkProc 2 0)] [7] = [1] ∧
      MainGo [((2 : Pid), mkProc 2 0)] [7] 5 = .panicNil :=
  C10_fallback_requires_pid1 [((2 : Pid), mkProc 2 0)] [7] 5
    (processTree.cons 2 .nil .nil) (by decide) (by decide) (by decide)

/-! ## Claim C2: a positive parent id absent from the table -/

/-- C2 (code evaluated at the failing input): on the table `{5→99}` with
99 absent, `buildTree` does not make 5 a root of its own branch — the
ancestor walk dereferences the nil `*process` at `tb[99]` and panics
(for every fuel bound that lets the walk take its first step). -/
theorem C2_buildTree_panics_on_absent_parent (fuel : Nat) (h : 1 ≤ fuel) :
    buildTree tbOrphan fuel = .panicked := by
  obtain ⟨n, rfl⟩ : ∃ n, fuel = n + 1 := ⟨fuel - 1, by omega⟩
  show buildTreeGo tbOrphan (n + 1) [5] .nil = .panicked
  rw [buildTreeGo,
    ancestorWalk_succ_some tbOrphan n 5 [] (mkProc 5 99) (by decide)
      (by decide),
    show (mkProc 5 99).ppid = 99 from rfl,
    ancestorWalk_none tbOrphan n 99 [5] (by decide) (by decide)]

/-- C2 witness: the panic is reached at the concrete fuel bound 2. -/
theorem C2_witness : 1 ≤ 2 ∧ buildTree tbOrphan 2 = .panicked :=
  ⟨by decide, C2_buildTree_panics_on_absent_parent 2 (by decide)⟩

/-! ## Claim C3: self-parent cycles make `buildTree` diverge -/

theorem ancestorWalk_self_diverges (fuel : Nat) :
    ∀ acc, ancestorWalk tbSelf fuel 1 acc = .outOfFuel := by
  induction fuel with
  | zero => intro acc; rfl
  | succ n ih => intro acc; exact ih (1 :: acc)

/-- C3: `buildTree` does not terminate on the degenerate table `{1→1}`
in which a process is its own parent: for every fuel bound the ancestor
walk runs out of fuel, i.e. the Go loop `for ; pid > 0; pid = tb[pid].Ppid`
never exits, so the claim's termination guarantee fails on the code. -/
theorem C3_buildTree_diverges_on_self_parent (fuel : Nat) :
    buildTree tbSelf fuel = .outOfFuel := by
  show buildTreeGo tbSelf fuel [1] .nil = .outOfFuel
  rw [buildTreeGo, ancestorWalk_self_diverges]

/-! ## Claim C4: the scenario table's tree and flattening -/

/-- C4: on the table `{1→0, 2→1, 3→1, 4→2}` the built tree has node 1
with children {2, 3} and node 2 with child {4}, and flattening produces
exactly (0,1), (1,2), (2,4), (1,3) — the deepest-subtree-first order with
ties between siblings broken by pid ascending. -/
theorem C4_scenario_tree_and_flattening :
    buildTree tbScenario 9 = .ok treeScenario ∧
    treeScenario.keysTop = [1] ∧
    (treeScenario.lookup 1).map processTree.keysTop = some [2, 3] ∧
    ((treeScenario.lookup 1).bind (fun s => s.lookup 2)).map
      processTree.keysTop = some [4] ∧
    treeScenario.flatTree 0 = [(0, 1), (1, 2), (2, 4), (1, 3)] := by
  refine ⟨by decide, by decide, by decide, by decide, by decide⟩
